import Mathlib

/-!
# go-osmpbf-filter: a verification development over `main.go`

The program scans an OpenStreetMap PBF file three times: `supportedFilePass`
checks the header's required features, `findMatchingWaysPass` collects the ways
carrying a given tag key, and `findMatchingNodesPass` collects the nodes those
ways refer to.

Conventions of the embedding.

* Go `int64` values are integers (`Int`); the one arithmetic operation the
  program performs on them, `prevNodeId + deltaNodeId`, wraps modulo `2^64`
  (`add64`).
* Go `uint32` string-table indexes are natural numbers; a slice access `xs[i]`
  is the partial lookup `xs[i]?`, and a failed lookup is the run-time panic
  "index out of range", which ends the process.
* Go strings are modelled by `String`; only equality and concatenation are used.
* Functions of the repository that `main.go` calls but does not define
  (`DecodeBlob`, `MakeNodeReader`) and the protobuf library's `proto.Unmarshal`
  are parameters, collected in the structure `Codec`.
* A call `os.Exit(n)` is recorded by the place where it is made (`Fatal`), and
  `exitCode` gives `n`; a pass of the main task returns `Except.error`, a worker
  task ends with the status `exited`.
* The worker pools are modelled by the shares of the blobs the workers take from
  the common channel: each worker runs through its share in order, and the
  events of a pass are those of all its workers. What is proved of a pass holds
  for every way of sharing the blobs and does not depend on the order in which
  events of different workers arrive.
* In pass 2 every record sent is freshly allocated (`&myway{...}`), so what the
  writer task reads is what was sent. In pass 3 a worker sends the address of
  its one variable `n`, which it assigns again for the next owned node; the
  writer task reads through the address later. That pass is therefore a step
  relation on a state holding each worker's `n`, and what is proved of the rows
  written is proved for every sequence of steps.
-/

namespace OsmPbfFilter

/-! ## Machine integers -/

/-- The value of an integer reduced to the two's-complement `int64` range. -/
def wrap64 (x : Int) : Int := (x + 2 ^ 63) % 2 ^ 64 - 2 ^ 63

/-- Go's `+` on `int64`: addition that wraps around. -/
def add64 (a b : Int) : Int := wrap64 (a + b)

/-- Go's `-` on `int64`: subtraction that wraps around. -/
def sub64 (a b : Int) : Int := wrap64 (a - b)

/-- Membership in the `int64` range. -/
def InInt64 (x : Int) : Prop := -(2 ^ 63) ≤ x ∧ x < 2 ^ 63

instance (x : Int) : Decidable (InInt64 x) := by
  unfold InInt64; infer_instance

/-! ## Decoded structures (package `OSMPBF`, fields used by `main.go`) -/

/-- `OSMPBF.StringTable`: field `S`, each entry already converted by `string(...)`. -/
structure StringTable where
  S : List String
  deriving Repr, DecidableEq

/-- `OSMPBF.Way`: the required field `Id` (read as `*way.Id`), the parallel
index arrays `Keys` and `Vals`, and the delta-encoded `Refs`. -/
structure Way where
  Id : Int
  Keys : List Nat
  Vals : List Nat
  Refs : List Int
  deriving Repr, DecidableEq

/-- `OSMPBF.PrimitiveGroup`: only `Ways` is read directly by `main.go`. -/
structure PrimitiveGroup where
  Ways : List Way
  deriving Repr, DecidableEq

/-- `OSMPBF.PrimitiveBlock`. -/
structure PrimitiveBlock where
  Stringtable : StringTable
  Primitivegroup : List PrimitiveGroup
  deriving Repr, DecidableEq

/-- `OSMPBF.HeaderBlock`: field `RequiredFeatures`. -/
structure HeaderBlock where
  RequiredFeatures : List String
  deriving Repr, DecidableEq

/-- `type myway struct { id int64; nodeIds []int64; highway string }`. -/
structure myway where
  id : Int
  nodeIds : List Int
  highway : String
  deriving Repr, DecidableEq

/-! ## Delta decoding (`findMatchingWaysPass`, lines 129-135) -/

/-- The loop `for index, deltaNodeId := range way.Refs { ... }`: the state is the
loop index, the deltas still to visit, `prevNodeId` and the slice `nodeRefs`. -/
def decodeRefsLoop : Nat → List Int → Int → List Int → List Int
  | _, [], _, nodeRefs => nodeRefs
  | index, deltaNodeId :: rest, prevNodeId, nodeRefs =>
      let nodeId := add64 prevNodeId deltaNodeId
      decodeRefsLoop (index + 1) rest nodeId (nodeRefs.set index nodeId)

/-- Lines 129-135: `nodeRefs = make([]int64, len(way.Refs))`, `prevNodeId = 0`,
then the loop. -/
def decodeRefs (refs : List Int) : List Int :=
  decodeRefsLoop 0 refs 0 (List.replicate refs.length 0)

/-- The delta encoding in the words of the specification: `d_0 = a_0` and
`d_i = a_i - a_{i-1}`, the difference taken in `int64` arithmetic. -/
def encodeDeltasFrom (prev : Int) : List Int → List Int
  | [] => []
  | a :: as => sub64 a prev :: encodeDeltasFrom a as

/-- The delta encoding of a sequence of absolute ids (specification side). -/
def encodeDeltas : List Int → List Int
  | [] => []
  | a :: as => a :: encodeDeltasFrom a as

/-- Running sums in `int64` arithmetic, starting from `prev`. -/
def runningSums (prev : Int) : List Int → List Int
  | [] => []
  | d :: ds => add64 prev d :: runningSums (add64 prev d) ds

/-! ## Blobs and the functions `main.go` takes from elsewhere -/

/-- `type node struct { id int64; lon float64; lat float64 }`. -/
structure node where
  id : Int
  lon : Float
  lat : Float
  deriving Repr

/-- Modelled from the spec: the record type yielded by `MakeNodeReader`, whose
declaration is in another file of the package. The specification describes it
as `PointRecord (decoded): {id: int64, lon: float64, lat: float64}`; `main.go`
reads it through `GetNodeId()` and `GetLonLat()`. -/
structure AbsNode where
  nodeId : Int
  lon : Float
  lat : Float
  deriving Repr

/-- The accessor `absNode.GetNodeId()`. -/
def AbsNode.GetNodeId (n : AbsNode) : Int := n.nodeId

/-- The accessor `absNode.GetLonLat()`, returning `(lon, lat)`. -/
def AbsNode.GetLonLat (n : AbsNode) : Float × Float := (n.lon, n.lat)

/-- One element of the stream returned by `MakePrimitiveBlockReader(file)`:
`*data.blobHeader.Type` and the raw payload. -/
structure blockData where
  blobHeaderType : String
  blobBytes : List Nat
  deriving Repr, DecidableEq

/-- The functions `main.go` calls but does not define. `DecodeBlob` and
`MakeNodeReader` belong to other files of the package, `proto.Unmarshal` (at the
two types it is used at) to the protobuf library. A decoding error is `none`;
the program only prints its text. -/
structure Codec where
  DecodeBlob : blockData → Option (List Nat)
  UnmarshalHeader : List Nat → Option HeaderBlock
  UnmarshalPrimitive : List Nat → Option PrimitiveBlock
  MakeNodeReader : PrimitiveBlock → List AbsNode

/-! ## Fatal errors and exit codes -/

/-- The places where the program calls `os.Exit`. -/
inductive Fatal where
  /-- Line 297: `os.Open` failed, `os.Exit(1)`. -/
  | openInput
  /-- Line 308: `ReadNextBlobHeader` failed in the counting scan, `os.Exit(2)`. -/
  | blobHeaderRead
  /-- Line 67: `DecodeBlob` failed on an `OSMHeader` blob, `os.Exit(5)`. -/
  | headerBlobRead
  /-- Line 74: `proto.Unmarshal` failed on the header block, `os.Exit(5)`. -/
  | headerDecode
  /-- Line 80: a required feature is not supported, `os.Exit(5)`. -/
  | unsupportedFeature (feat : String)
  /-- Lines 112 and 222: `DecodeBlob` failed on an `OSMData` blob, `os.Exit(6)`. -/
  | dataBlobDecode
  /-- Lines 119 and 229: `proto.Unmarshal` failed on a data block, `os.Exit(6)`. -/
  | dataDecode
  /-- Line 329: `ways.csv` could not be created, `os.Exit(2)`. -/
  | waysFileCreate
  /-- Line 339: `nodes.csv` could not be created, `os.Exit(2)`. -/
  | nodesFileCreate
  deriving Repr, DecidableEq

/-- The argument of `os.Exit` at each place. -/
def exitCode : Fatal → Nat
  | .openInput => 1
  | .blobHeaderRead => 2
  | .headerBlobRead => 5
  | .headerDecode => 5
  | .unsupportedFeature _ => 5
  | .dataBlobDecode => 6
  | .dataDecode => 6
  | .waysFileCreate => 2
  | .nodesFileCreate => 2

/-- The five failure classes named by the specification. -/
inductive FailureClass where
  | openInput
  | framingRead
  | unsupportedFeature
  | blockDecode
  | outputCreate
  deriving Repr, DecidableEq

/-- The class of each place of failure: decoding errors of the header block and
of data blocks are both "structured-block decode errors". -/
def failureClass : Fatal → FailureClass
  | .openInput => .openInput
  | .blobHeaderRead => .framingRead
  | .headerBlobRead => .blockDecode
  | .headerDecode => .blockDecode
  | .unsupportedFeature _ => .unsupportedFeature
  | .dataBlobDecode => .blockDecode
  | .dataDecode => .blockDecode
  | .waysFileCreate => .outputCreate
  | .nodesFileCreate => .outputCreate

/-! ## Pass 1: `supportedFilePass` -/

/-- Lines 77-82: the loop over `header.RequiredFeatures`. -/
def checkFeatures : List String → Except Fatal Unit
  | [] => .ok ()
  | feat :: rest =>
      if feat ≠ "OsmSchema-V0.6" ∧ feat ≠ "DenseNodes" then
        .error (.unsupportedFeature feat)
      else checkFeatures rest

/-- Lines 58-84: the loop over the blobs of the file. -/
def supportedFilePass (c : Codec) : List blockData → Except Fatal Unit
  | [] => .ok ()
  | data :: rest =>
      if data.blobHeaderType ≠ "OSMHeader" then supportedFilePass c rest
      else
        match c.DecodeBlob data with
        | none => .error .headerBlobRead
        | some blockBytes =>
          match c.UnmarshalHeader blockBytes with
          | none => .error .headerDecode
          | some header =>
            match checkFeatures header.RequiredFeatures with
            | .error e => .error e
            | .ok () => supportedFilePass c rest

/-! ## Pass 2: `findMatchingWaysPass` -/

/-- How a piece of worker code ends: it runs to its end, the process exits with
a fatal error, or a slice index is out of range (a run-time panic). -/
inductive Status where
  | done
  | exited (f : Fatal)
  | panicked
  deriving Repr, DecidableEq

/-- What a piece of worker code sent before it ended, and how it ended. -/
structure Run (α : Type) where
  emitted : List α
  status : Status
  deriving Repr

/-- Sequencing of two pieces of worker code: the second runs only if the first
ran to its end. -/
def Run.andThen {α : Type} (r : Run α) (k : Unit → Run α) : Run α :=
  match r.status with
  | .done => let r2 := k (); ⟨r.emitted ++ r2.emitted, r2.status⟩
  | _ => r

/-- Lines 124-140: the loop `for i, keyIndex := range way.Keys` of one way. The
three slice accesses are made in the order of the source, before the test
`key == filterTag`. -/
def tagLoop (filterTag : String) (S : List String) (way : Way) : Nat → List Nat → Run myway
  | _, [] => ⟨[], .done⟩
  | i, keyIndex :: rest =>
      match way.Vals[i]? with
      | none => ⟨[], .panicked⟩
      | some valueIndex =>
        match S[keyIndex]? with
        | none => ⟨[], .panicked⟩
        | some key =>
          match S[valueIndex]? with
          | none => ⟨[], .panicked⟩
          | some value =>
            if key = filterTag then
              Run.andThen ⟨[⟨way.Id, decodeRefs way.Refs, value⟩], .done⟩
                (fun _ => tagLoop filterTag S way (i + 1) rest)
            else tagLoop filterTag S way (i + 1) rest

/-- Lines 123-141: the loop over the ways of one primitive group. -/
def waysLoop (filterTag : String) (S : List String) : List Way → Run myway
  | [] => ⟨[], .done⟩
  | way :: rest =>
      (tagLoop filterTag S way 0 way.Keys).andThen (fun _ => waysLoop filterTag S rest)

/-- Lines 122-142: the loop over the primitive groups of one block. -/
def groupsLoop (filterTag : String) (S : List String) : List PrimitiveGroup → Run myway
  | [] => ⟨[], .done⟩
  | primitiveGroup :: rest =>
      (waysLoop filterTag S primitiveGroup.Ways).andThen (fun _ => groupsLoop filterTag S rest)

/-- Lines 122-142 for one decoded block: the ways sent on `wayqueue`, in order. -/
def findMatchingWaysBlock (filterTag : String) (primitiveBlock : PrimitiveBlock) : Run myway :=
  groupsLoop filterTag primitiveBlock.Stringtable.S primitiveBlock.Primitivegroup

/-- What a worker of the way-filtering pass sends. -/
inductive WayEvent where
  /-- Line 136: `wayqueue <- &myway{...}`. -/
  | way (w : myway)
  /-- Line 138: `appendNodeRefs <- nodeRefs`. -/
  | nodeRefs (r : List Int)
  /-- Line 144: `pending <- true`. -/
  | pending
  /-- Line 146: `exitqueue <- true`. -/
  | exit
  deriving Repr, DecidableEq

/-- Lines 136-138: each matching pair sends the way and then its node ids. -/
def wayEvents (ws : List myway) : List WayEvent :=
  ws.flatMap (fun w => [WayEvent.way w, WayEvent.nodeRefs w.nodeIds])

/-- Lines 108-144: the body of the worker loop for one blob. -/
def waysWorkerBlob (c : Codec) (filterTag : String) (data : blockData) : Run WayEvent :=
  Run.andThen
    (if data.blobHeaderType = "OSMData" then
      match c.DecodeBlob data with
      | none => ⟨[], .exited .dataBlobDecode⟩
      | some blockBytes =>
        match c.UnmarshalPrimitive blockBytes with
        | none => ⟨[], .exited .dataDecode⟩
        | some primitiveBlock =>
          let r := findMatchingWaysBlock filterTag primitiveBlock
          ⟨wayEvents r.emitted, r.status⟩
    else ⟨[], .done⟩)
    (fun _ => ⟨[WayEvent.pending], .done⟩)

/-- Lines 107-146: one worker, given the blobs it takes from `blockDataReader`. -/
def waysWorker (c : Codec) (filterTag : String) : List blockData → Run WayEvent
  | [] => ⟨[WayEvent.exit], .done⟩
  | data :: rest =>
      (waysWorkerBlob c filterTag data).andThen (fun _ => waysWorker c filterTag rest)

/-- The specification's reading of the tag loop of one way: one record for each
pair `(keys[i], vals[i])` whose key string is the target tag, carrying the
way's id, the value string of that pair and the decoded point ids. -/
def expectedWayRecords (filterTag : String) (S : List String) (way : Way) : List myway :=
  ((way.Keys.zip way.Vals).filter (fun p => S[p.1]? = some filterTag)).map
    (fun p => ⟨way.Id, decodeRefs way.Refs, (S[p.2]?).getD ""⟩)

/-- The specification's reading for a whole block: ways in file order. -/
def expectedBlockRecords (filterTag : String) (b : PrimitiveBlock) : List myway :=
  b.Primitivegroup.flatMap
    (fun g => g.Ways.flatMap (fun w => expectedWayRecords filterTag b.Stringtable.S w))

/-- A way's tag arrays can be read safely against a string table: at least as
many value indexes as key indexes, and every index within the table. -/
def Way.IndexSafe (S : List String) (w : Way) : Prop :=
  w.Keys.length ≤ w.Vals.length ∧ (∀ k ∈ w.Keys, k < S.length) ∧ (∀ v ∈ w.Vals, v < S.length)

instance (S : List String) (w : Way) : Decidable (w.IndexSafe S) := by
  unfold Way.IndexSafe; infer_instance

/-- Every way of the block is index-safe against the block's string table. -/
def PrimitiveBlock.IndexSafe (b : PrimitiveBlock) : Prop :=
  ∀ g ∈ b.Primitivegroup, ∀ w ∈ g.Ways, w.IndexSafe b.Stringtable.S

instance (b : PrimitiveBlock) : Decidable b.IndexSafe := by
  unfold PrimitiveBlock.IndexSafe; infer_instance

/-- The lookups the tag loop of a way makes: for every position of `Keys`, the
value index at that position and both strings. -/
def Way.LookupsSucceed (S : List String) (w : Way) : Prop :=
  ∀ i, i < w.Keys.length →
    ∃ k v, w.Keys[i]? = some k ∧ w.Vals[i]? = some v ∧ k < S.length ∧ v < S.length

/-! ## The writer task of pass 2 (lines 154-162) -/

/-- The verb `%d` of `fmt.Sprintf` on an `int64`: decimal digits, with a
leading minus sign for a negative number. -/
def fmtD (v : Int) : String :=
  if v < 0 then "-" ++ Nat.repr v.natAbs else Nat.repr v.natAbs

/-- Lines 155-159: the text written for one way taken from `wayqueue`;
`strings.Join(csv, ",")` is `String.intercalate`. -/
def wayRow (way : myway) : String :=
  let csv := way.nodeIds.map fmtD
  fmtD way.id ++ "," ++ way.highway ++ "," ++ String.intercalate "," csv ++ "\n"

/-- The row format in the words of the specification: the comma-join of
`[decimal(w), v, decimal(p_1), ..., decimal(p_n)]` followed by a newline. -/
def specWayRow (way : myway) : String :=
  String.intercalate "," (fmtD way.id :: way.highway :: way.nodeIds.map fmtD) ++ "\n"

/-- The number of comma-separated columns of a row: one more than the number
of commas. -/
def columnCount (row : String) : Nat := row.data.count ',' + 1

/-! ## The counting loop of the coordinator (lines 175-187 and 271-280) -/

/-- The loop `for _ = range pending`, given how many completion events arrive
while it runs. Its state is `blobCount`. The loop ends, with the final
`blobCount`, on `close(pending)`; with no event left and the channel open it
stays blocked (`none`). -/
def countLoop (totalBlobCount : Int) : Int → Nat → Option Int
  | _, 0 => none
  | blobCount, arrivals + 1 =>
      let blobCount := blobCount + 1
      if blobCount = totalBlobCount then some blobCount
      else countLoop totalBlobCount blobCount arrivals

/-! ## Pass 3: `findMatchingNodesPass` -/

/-- Lines 197-201: the loop over the node ids of one way; the map
`map[int64]bool` is a function that is `false` on absent keys. -/
def ownersWayLoop (nodeOwners : Int → Bool) : List Int → Int → Bool
  | [] => nodeOwners
  | nodeId :: rest =>
      if nodeOwners nodeId = false then
        ownersWayLoop (Function.update nodeOwners nodeId true) rest
      else ownersWayLoop nodeOwners rest

/-- Lines 196-202: the loop over `wayNodeRefs`. -/
def ownersLoop (nodeOwners : Int → Bool) : List (List Int) → Int → Bool
  | [] => nodeOwners
  | way :: rest => ownersLoop (ownersWayLoop nodeOwners way) rest

/-- Lines 195-202: the ownership map built from `wayNodeRefs`. It is a
membership set: the only value stored is `true` (the comment of line 194, which
speaks of way indexes, does not describe it). -/
def buildNodeOwners (wayNodeRefs : List (List Int)) : Int → Bool :=
  ownersLoop (fun _ => false) wayNodeRefs

/-- What a worker of the point-filtering pass does that another task can
observe. The worker has one variable `n` (line 215, declared once, outside its
loops); it assigns to it and sends its address. -/
inductive NodeEvent where
  /-- Lines 237-240: `n = node{absNode.GetNodeId(), lon, lat}`. -/
  | assign (n : node)
  /-- Line 241: `nodequeue <- &n`, the address of the worker's variable. -/
  | send
  /-- Line 244: `pending <- true`. -/
  | pending
  /-- Line 246: `exitqueue <- true`. -/
  | exit
  deriving Repr

/-- Lines 232-242: the loop over the nodes read from one block; an owned node
is assigned to `n` and the address of `n` is sent. -/
def nodesLoop (nodeOwners : Int → Bool) : List AbsNode → List NodeEvent
  | [] => []
  | absNode :: rest =>
      let owners := nodeOwners absNode.GetNodeId
      if owners = false then nodesLoop nodeOwners rest
      else
        let (lon, lat) := absNode.GetLonLat
        .assign ⟨absNode.GetNodeId, lon, lat⟩ :: .send :: nodesLoop nodeOwners rest

/-- Lines 218-244: the body of the worker loop for one blob. -/
def nodesWorkerBlob (c : Codec) (nodeOwners : Int → Bool) (data : blockData) : Run NodeEvent :=
  Run.andThen
    (if data.blobHeaderType = "OSMData" then
      match c.DecodeBlob data with
      | none => ⟨[], .exited .dataBlobDecode⟩
      | some blockBytes =>
        match c.UnmarshalPrimitive blockBytes with
        | none => ⟨[], .exited .dataDecode⟩
        | some primitiveBlock =>
          ⟨nodesLoop nodeOwners (c.MakeNodeReader primitiveBlock), .done⟩
    else ⟨[], .done⟩)
    (fun _ => ⟨[NodeEvent.pending], .done⟩)

/-- Lines 217-246: one worker, given the blobs it takes from `blockDataReader`. -/
def nodesWorker (c : Codec) (nodeOwners : Int → Bool) : List blockData → Run NodeEvent
  | [] => ⟨[NodeEvent.exit], .done⟩
  | data :: rest =>
      (nodesWorkerBlob c nodeOwners data).andThen (fun _ => nodesWorker c nodeOwners rest)

/-- The ids of the values assigned to `n`, in order: one for each send. -/
def nodeIdsOf : List NodeEvent → List Int
  | [] => []
  | .assign n :: rest => n.id :: nodeIdsOf rest
  | _ :: rest => nodeIdsOf rest

/-- The number of completion events among the events of the point pass. -/
def pendingCountN : List NodeEvent → Nat
  | [] => 0
  | .pending :: rest => pendingCountN rest + 1
  | _ :: rest => pendingCountN rest

/-- The number of completion events among the events of the way pass. -/
def pendingCountW : List WayEvent → Nat
  | [] => 0
  | .pending :: rest => pendingCountW rest + 1
  | _ :: rest => pendingCountW rest

/-- The decoded block of a blob, when the blob is of type `OSMData` and both
decoding steps succeed. -/
def dataBlockOf (c : Codec) (data : blockData) : Option PrimitiveBlock :=
  if data.blobHeaderType = "OSMData" then
    (c.DecodeBlob data).bind c.UnmarshalPrimitive
  else none

/-- The ids of the point records of the dataset: the nodes of every decoded
data block, in file order. -/
def datasetPointIds (c : Codec) (blobs : List blockData) : List Int :=
  blobs.flatMap (fun data =>
    match dataBlockOf c data with
    | some b => (c.MakeNodeReader b).map AbsNode.GetNodeId
    | none => [])

/-- No blob of the list makes a worker exit: every `OSMData` blob decodes. -/
def AllDataDecodes (c : Codec) (blobs : List blockData) : Prop :=
  ∀ data ∈ blobs, data.blobHeaderType = "OSMData" → (dataBlockOf c data).isSome

instance (c : Codec) (blobs : List blockData) : Decidable (AllDataDecodes c blobs) := by
  unfold AllDataDecodes; infer_instance

/-- The events of a pass in which the workers take the given shares of the
blobs: every worker runs on its share; the events of the pass are those of all
workers (their order depends on the interleaving). -/
def nodesPassEvents (c : Codec) (wayNodeRefs : List (List Int))
    (shares : List (List blockData)) : List NodeEvent :=
  shares.flatMap (fun share => (nodesWorker c (buildNodeOwners wayNodeRefs) share).emitted)

/-- The events of the way pass for given shares of the blobs. -/
def waysPassEvents (c : Codec) (filterTag : String)
    (shares : List (List blockData)) : List WayEvent :=
  shares.flatMap (fun share => (waysWorker c filterTag share).emitted)

/-! ## The writer task of pass 3 and the variable `n` (lines 215, 241, 254-255)

A worker sends the address of its variable `n`; the writer task receives the
address (line 254) and reads the variable through it afterwards (line 255).
`nodequeue` is unbuffered, so the send is a rendezvous and the worker goes on
as soon as the writer has received the address: it may assign the next owned
node to `n` before the writer has read it. The steps below are the places
where the two tasks meet or touch `n`; a run of the pass is a sequence of
steps. The three fields of `n` are read one after another at line 255; the
model reads them at once, which is exact for the id column. -/

/-- One worker of the point pass while it runs: its variable `n` and what it
still has to do. -/
structure NodeWorkerState where
  n : node
  todo : List NodeEvent
  deriving Repr

/-- The point pass while it runs: the workers; the address the writer task has
received and not yet read through, given as the index of the worker whose `n`
it is; the rows written so far, each the value read through the address. -/
structure NodesPassState where
  workers : List NodeWorkerState
  holding : Option Nat
  rows : List node
  deriving Repr

/-- A step of the point pass: worker `w` does its next action, or the writer
task reads through the address it holds and writes the row. -/
inductive NodesPassStep where
  | work (w : Nat)
  | write
  deriving Repr, DecidableEq

/-- The next action of a worker. An assignment changes `n` at once. A send on
`nodequeue` and a send on `exitqueue` are taken by the writer task, which must
be at its `select`, holding no address; until then the worker stays blocked. A
send on `pending` is taken by the counting loop of the main task. -/
def workerStep (s : NodesPassState) (w : Nat) (ws : NodeWorkerState) : NodesPassState :=
  match ws.todo with
  | [] => s
  | .assign v :: rest => { s with workers := s.workers.set w ⟨v, rest⟩ }
  | .send :: rest =>
      match s.holding with
      | none => { s with workers := s.workers.set w ⟨ws.n, rest⟩, holding := some w }
      | some _ => s
  | .pending :: rest => { s with workers := s.workers.set w ⟨ws.n, rest⟩ }
  | .exit :: rest =>
      match s.holding with
      | none => { s with workers := s.workers.set w ⟨ws.n, rest⟩ }
      | some _ => s

/-- One step of the pass; a step that cannot be taken leaves the state as it
is. The writer's step is line 255: it writes the value `n` has now. -/
def nodesPassStep (s : NodesPassState) : NodesPassStep → NodesPassState
  | .work w =>
      match s.workers[w]? with
      | none => s
      | some ws => workerStep s w ws
  | .write =>
      match s.holding with
      | none => s
      | some w =>
        match s.workers[w]? with
        | none => s
        | some ws => { s with rows := s.rows ++ [ws.n], holding := none }

/-- The start of the pass for given shares of the blobs: every worker's `n` has
its zero value and the worker has its whole share before it. -/
def nodesPassInit (c : Codec) (wayNodeRefs : List (List Int))
    (shares : List (List blockData)) : NodesPassState :=
  { workers := shares.map (fun share =>
      ⟨⟨0, 0, 0⟩, (nodesWorker c (buildNodeOwners wayNodeRefs) share).emitted⟩)
    holding := none
    rows := [] }

/-- The state of the pass after a sequence of steps. -/
def runNodesPass (c : Codec) (wayNodeRefs : List (List Int))
    (shares : List (List blockData)) (schedule : List NodesPassStep) : NodesPassState :=
  schedule.foldl nodesPassStep (nodesPassInit c wayNodeRefs shares)

/-- The ids of the rows written, in the order of writing. -/
def writtenIds (s : NodesPassState) : List Int := s.rows.map (fun r => r.id)

/-- The pass has run to its end: no worker has anything left to do and the
writer holds no address. -/
def NodesPassState.finished (s : NodesPassState) : Bool :=
  s.workers.all (fun ws => ws.todo.isEmpty) && s.holding.isNone

/-- Every send on `nodequeue` in a worker's remaining actions comes after an
assignment of a value whose id satisfies `P`, or `n` already holds such a
value (`ok`). -/
def SendsCovered (P : Int → Prop) : Prop → List NodeEvent → Prop
  | _, [] => True
  | _, .assign v :: rest => P v.id ∧ SendsCovered P True rest
  | ok, .send :: rest => ok ∧ SendsCovered P ok rest
  | ok, .pending :: rest => SendsCovered P ok rest
  | ok, .exit :: rest => SendsCovered P ok rest

/-- The invariant of a run of the point pass for a property `P` of ids: the
rows written, the value of `n` behind the address the writer holds, and every
value a worker can still send satisfy `P`. -/
structure NodesPassInv (P : Int → Prop) (s : NodesPassState) : Prop where
  rows : ∀ r ∈ s.rows, P r.id
  workers : ∀ ws ∈ s.workers, SendsCovered P (P ws.n.id) ws.todo
  holding : ∀ w, s.holding = some w → ∃ ws, s.workers[w]? = some ws ∧ P ws.n.id

/-! ## Example data -/

/-- A string table for the examples. -/
def exampleTable : StringTable :=
  ⟨["", "highway", "residential", "landuse", "forest", "primary", "name"]⟩

/-- Way 1 is tagged `highway=residential` and refers to points 1 and 2; way 2 is
tagged `landuse=forest` and refers to points 2 and 3; way 3 carries the key
`highway` twice, with values `residential` and `primary`, and has no point. -/
def exampleBlock : PrimitiveBlock :=
  { Stringtable := exampleTable
    Primitivegroup :=
      [⟨[⟨1, [1], [2], [1, 1]⟩, ⟨2, [3], [4], [2, 1]⟩]⟩,
       ⟨[⟨3, [6, 1, 1], [0, 2, 5], []⟩]⟩] }

/-- A block whose first way has the key `name` with a value index outside the
string table, followed by a way tagged `highway=residential`. -/
def danglingValueBlock : PrimitiveBlock :=
  { Stringtable := exampleTable
    Primitivegroup := [⟨[⟨1, [6], [99], [1, 1]⟩, ⟨2, [1], [2], [4]⟩]⟩] }

/-- The three points of the example dataset. -/
def examplePoints : List AbsNode := [⟨1, 10, 20⟩, ⟨2, 11, 21⟩, ⟨3, 12, 22⟩]

/-- A table-driven codec for the examples: the payload is its own decoded
bytes, and the first byte selects the decoded structure. -/
def exampleCodec : Codec where
  DecodeBlob data := some data.blobBytes
  UnmarshalHeader bytes :=
    match bytes with
    | [0] => some ⟨["OsmSchema-V0.6", "DenseNodes", "DenseNodes"]⟩
    | [1] => some ⟨["OsmSchema-V0.6", "HistoricalInformation"]⟩
    | [2] => some ⟨[]⟩
    | _ => none
  UnmarshalPrimitive bytes :=
    match bytes with
    | [10] => some exampleBlock
    | [11] => some danglingValueBlock
    | _ => none
  MakeNodeReader b := if b = exampleBlock then examplePoints else []

/-- An example file: a supported header, the example data block, and a blob of
another type. -/
def exampleBlobs : List blockData :=
  [⟨"OSMHeader", [0]⟩, ⟨"OSMData", [10]⟩, ⟨"Other", [77]⟩]

/-- A run of one worker on the example data block, the ways referring to
points 1 and 2, in which the writer reads each row before the worker assigns
the next node. -/
def promptSchedule : List NodesPassStep :=
  [.work 0, .work 0, .write, .work 0, .work 0, .write, .work 0, .work 0]

/-- The same run, except that after the writer has received the address for
point 1 the worker assigns point 2 to `n` before the writer reads. -/
def lateSchedule : List NodesPassStep :=
  [.work 0, .work 0, .work 0, .write, .work 0, .write, .work 0, .work 0]

/-! ## Lemmas on machine integers and delta decoding -/

theorem wrap64_of_inInt64 {x : Int} (h : InInt64 x) : wrap64 x = x := by
  unfold InInt64 at h
  unfold wrap64
  rw [Int.emod_eq_of_lt (by omega) (by omega)]
  omega

theorem wrap64_inInt64 (x : Int) : InInt64 (wrap64 x) := by
  unfold InInt64 wrap64
  have h1 := Int.emod_nonneg (x + 2 ^ 63) (b := 2 ^ 64) (by norm_num)
  have h2 := Int.emod_lt_of_pos (x + 2 ^ 63) (b := 2 ^ 64) (by norm_num)
  constructor <;> omega

theorem wrap64_wrap64_add (a b : Int) : wrap64 (wrap64 a + b) = wrap64 (a + b) := by
  unfold wrap64
  have : (a + 2 ^ 63) % 2 ^ 64 - 2 ^ 63 + b + 2 ^ 63 = (a + 2 ^ 63) % 2 ^ 64 + b := by ring
  rw [this, Int.emod_add_emod]
  congr 2
  ring

theorem wrap64_add_wrap64 (a b : Int) : wrap64 (a + wrap64 b) = wrap64 (a + b) := by
  rw [add_comm, wrap64_wrap64_add, add_comm]

theorem take_succ_set (arr : List Int) (i : Nat) (v : Int) (h : i < arr.length) :
    (arr.set i v).take (i + 1) = arr.take i ++ [v] := by
  induction arr generalizing i with
  | nil => simp at h
  | cons a as ih =>
    cases i with
    | zero => simp
    | succ j =>
      simp only [List.length_cons, Nat.add_lt_add_iff_right] at h
      simp [ih j h]

theorem decodeRefsLoop_eq (rest : List Int) :
    ∀ (index : Nat) (prev : Int) (arr : List Int),
      arr.length = index + rest.length →
      decodeRefsLoop index rest prev arr = arr.take index ++ runningSums prev rest := by
  induction rest with
  | nil =>
    intro index prev arr h
    simp only [List.length_nil, Nat.add_zero] at h
    simp [decodeRefsLoop, runningSums, ← h]
  | cons d ds ih =>
    intro index prev arr h
    simp only [List.length_cons] at h
    simp only [decodeRefsLoop, runningSums]
    rw [ih (index + 1) _ _ (by rw [List.length_set]; omega),
      take_succ_set arr index _ (by omega)]
    simp

theorem decodeRefs_eq_runningSums (refs : List Int) :
    decodeRefs refs = runningSums 0 refs := by
  unfold decodeRefs
  rw [decodeRefsLoop_eq refs 0 0 _ (by simp)]
  simp

theorem length_runningSums (ds : List Int) : ∀ prev, (runningSums prev ds).length = ds.length := by
  induction ds with
  | nil => intro prev; rfl
  | cons d ds ih => intro prev; simp [runningSums, ih]

theorem runningSums_getElem? (ds : List Int) :
    ∀ (prev : Int) (i : Nat), i < ds.length →
      (runningSums prev ds)[i]? = some (wrap64 (prev + (ds.take (i + 1)).sum)) := by
  induction ds with
  | nil => intro prev i h; simp at h
  | cons d ds ih =>
    intro prev i h
    cases i with
    | zero => simp [runningSums, add64]
    | succ j =>
      simp only [List.length_cons, Nat.add_lt_add_iff_right] at h
      simp only [runningSums, List.getElem?_cons_succ, List.take_succ_cons, List.sum_cons]
      rw [ih _ j h, add64, wrap64_wrap64_add, add_assoc]

theorem runningSums_encodeDeltasFrom (as : List Int) :
    ∀ prev : Int, (∀ a ∈ as, InInt64 a) →
      runningSums prev (encodeDeltasFrom prev as) = as := by
  induction as with
  | nil => intro prev _; rfl
  | cons a as ih =>
    intro prev h
    have ha : InInt64 a := h a (List.mem_cons_self _ _)
    have hstep : add64 prev (sub64 a prev) = a := by
      unfold add64 sub64
      rw [wrap64_add_wrap64]
      have : prev + (a - prev) = a := by ring
      rw [this, wrap64_of_inInt64 ha]
    simp only [encodeDeltasFrom, runningSums, hstep]
    rw [ih a (fun x hx => h x (List.mem_cons_of_mem _ hx))]

theorem tagLoop_emitted_mem (filterTag : String) (S : List String) (way : Way)
    (keys : List Nat) :
    ∀ (i : Nat) (r : myway), r ∈ (tagLoop filterTag S way i keys).emitted →
      r.id = way.Id ∧ r.nodeIds = decodeRefs way.Refs := by
  induction keys with
  | nil => intro i r hr; simp [tagLoop] at hr
  | cons k ks ih =>
    intro i r hr
    unfold tagLoop at hr
    split at hr
    · simp at hr
    · split at hr
      · simp at hr
      · split at hr
        · simp at hr
        · split at hr
          · simp only [Run.andThen, List.singleton_append, List.mem_cons] at hr
            rcases hr with hr | hr
            · subst hr; exact ⟨rfl, rfl⟩
            · exact ih _ r hr
          · exact ih _ r hr

/-! ## Delta decoding: running sums and round trip -/

/-- C2: every record the tag loop of a way emits carries a point-id list of the
same length as the way's encoded reference list, whose i-th element is the
running sum `d_0 + ... + d_i` reduced to `int64` (and the plain sum when that
sum is within the `int64` range); positions are kept, so a zero delta repeats
the previous id at the next position. -/
theorem decodeRefs_running_sum (filterTag : String) (S : List String) (way : Way)
    (r : myway) (hr : r ∈ (tagLoop filterTag S way 0 way.Keys).emitted) :
    r.nodeIds.length = way.Refs.length ∧
    (∀ i, i < way.Refs.length →
      r.nodeIds[i]? = some (wrap64 ((way.Refs.take (i + 1)).sum))) ∧
    (∀ i, i < way.Refs.length → InInt64 ((way.Refs.take (i + 1)).sum) →
      r.nodeIds[i]? = some ((way.Refs.take (i + 1)).sum)) ∧
    (∀ i, i + 1 < way.Refs.length → way.Refs[i + 1]? = some 0 →
      r.nodeIds[i + 1]? = r.nodeIds[i]?) := by
  obtain ⟨-, hn⟩ := tagLoop_emitted_mem filterTag S way way.Keys 0 r hr
  have key : ∀ i, i < way.Refs.length →
      r.nodeIds[i]? = some (wrap64 ((way.Refs.take (i + 1)).sum)) := by
    intro i hi
    rw [hn, decodeRefs_eq_runningSums, runningSums_getElem? _ _ _ hi, zero_add]
  refine ⟨?_, key, ?_, ?_⟩
  · rw [hn, decodeRefs_eq_runningSums, length_runningSums]
  · intro i hi hin
    rw [key i hi, wrap64_of_inInt64 hin]
  · intro i hi hz
    rw [key (i + 1) hi, key i (by omega), List.sum_take_succ _ _ hi]
    have h0 : way.Refs[i + 1] = 0 := by
      rw [List.getElem?_eq_getElem hi] at hz
      exact Option.some.inj hz
    rw [h0, add_zero]

/-- A way with deltas `[5, 0, -2]`, one matching tag: the emitted ids are
`[5, 5, 3]`. -/
theorem decodeRefs_running_sum_witness :
    (⟨7, [5, 5, 3], "residential"⟩ : myway) ∈
        (tagLoop "highway" ["highway", "residential"]
          ⟨7, [0], [1], [5, 0, -2]⟩ 0 [0]).emitted ∧
      ([5, 5, 3] : List Int).length = 3 ∧
      ([5, 5, 3] : List Int)[1]? = some (wrap64 (([5, 0, -2] : List Int).take 2).sum) ∧
      ([5, 5, 3] : List Int)[1]? = ([5, 5, 3] : List Int)[0]? :=
  have hmem : (⟨7, [5, 5, 3], "residential"⟩ : myway) ∈
      (tagLoop "highway" ["highway", "residential"]
        ⟨7, [0], [1], [5, 0, -2]⟩ 0 [0]).emitted := by decide
  have h := decodeRefs_running_sum "highway" ["highway", "residential"]
    ⟨7, [0], [1], [5, 0, -2]⟩ ⟨7, [5, 5, 3], "residential"⟩ hmem
  ⟨hmem, h.1, h.2.1 1 (by decide), h.2.2.2 0 (by decide) (by decide)⟩

/-- C8: encoding absolute `int64` ids as deltas and running the decoding loop
gives back the original sequence, also when a difference wraps around. -/
theorem decodeRefs_encodeDeltas (as : List Int) (h : ∀ a ∈ as, InInt64 a) :
    decodeRefs (encodeDeltas as) = as := by
  cases as with
  | nil => rfl
  | cons a as =>
    have ha : InInt64 a := h a (List.mem_cons_self _ _)
    have h0 : add64 0 a = a := by
      unfold add64
      rw [zero_add, wrap64_of_inInt64 ha]
    rw [decodeRefs_eq_runningSums]
    simp only [encodeDeltas, runningSums, h0]
    rw [runningSums_encodeDeltasFrom as a (fun x hx => h x (List.mem_cons_of_mem _ hx))]

/-- The round trip at a sequence whose second difference overflows `int64`:
`-2^63 - (2^63 - 1)` wraps to `1`. -/
theorem decodeRefs_encodeDeltas_witness :
    encodeDeltas [2 ^ 63 - 1, -(2 ^ 63), 5, 5] = [2 ^ 63 - 1, 1, -(2 ^ 63) + 5, 0] ∧
      decodeRefs (encodeDeltas [2 ^ 63 - 1, -(2 ^ 63), 5, 5]) = [2 ^ 63 - 1, -(2 ^ 63), 5, 5] :=
  ⟨by decide, decodeRefs_encodeDeltas [2 ^ 63 - 1, -(2 ^ 63), 5, 5] (by decide)⟩

/-! ## The way filter on one block -/

theorem Run.andThen_done {α : Type} (e : List α) (k : Unit → Run α) :
    Run.andThen ⟨e, .done⟩ k = ⟨e ++ (k ()).emitted, (k ()).status⟩ := rfl

theorem Run.andThen_status_done {α : Type} (r : Run α) (k : Unit → Run α) :
    (r.andThen k).status = .done ↔ r.status = .done ∧ (k ()).status = .done := by
  unfold Run.andThen
  cases h : r.status <;> simp [h]

theorem Run.andThen_eq_of_done {α : Type} (r : Run α) (k : Unit → Run α)
    (h : r.status = .done) :
    r.andThen k = ⟨r.emitted ++ (k ()).emitted, (k ()).status⟩ := by
  unfold Run.andThen
  simp [h]

theorem tagLoop_of_indexSafe (filterTag : String) (S : List String) (way : Way)
    (hv : ∀ v ∈ way.Vals, v < S.length) (keys : List Nat) :
    ∀ i : Nat, (∀ k ∈ keys, k < S.length) → i + keys.length ≤ way.Vals.length →
      tagLoop filterTag S way i keys =
        ⟨((keys.zip (way.Vals.drop i)).filter (fun p => S[p.1]? = some filterTag)).map
          (fun p => ⟨way.Id, decodeRefs way.Refs, (S[p.2]?).getD ""⟩), .done⟩ := by
  induction keys with
  | nil => intro i _ _; simp [tagLoop]
  | cons k ks ih =>
    intro i hk hlen
    simp only [List.length_cons] at hlen
    have hi : i < way.Vals.length := by omega
    have hkS : k < S.length := hk k (List.mem_cons_self _ _)
    have hvS : way.Vals[i] < S.length := hv _ (List.getElem_mem hi)
    have ih2 := ih (i + 1) (fun x hx => hk x (List.mem_cons_of_mem _ hx)) (by omega)
    unfold tagLoop
    rw [List.getElem?_eq_getElem hi, List.drop_eq_getElem_cons hi]
    simp only [List.getElem?_eq_getElem hkS, List.getElem?_eq_getElem hvS, List.zip_cons_cons]
    by_cases hkey : S[k] = filterTag
    · rw [if_pos hkey, ih2, Run.andThen_done]
      simp [List.filter_cons, List.getElem?_eq_getElem hkS, List.getElem?_eq_getElem hvS, hkey]
    · rw [if_neg hkey, ih2]
      simp [List.filter_cons, List.getElem?_eq_getElem hkS, hkey]

theorem tagLoop_done_lookups (filterTag : String) (S : List String) (way : Way)
    (keys : List Nat) :
    ∀ i : Nat, (tagLoop filterTag S way i keys).status = .done →
      ∀ j, j < keys.length →
        ∃ k v, keys[j]? = some k ∧ way.Vals[i + j]? = some v ∧ k < S.length ∧ v < S.length := by
  induction keys with
  | nil => intro i _ j hj; simp at hj
  | cons k ks ih =>
    intro i hdone j hj
    unfold tagLoop at hdone
    split at hdone
    · simp at hdone
    · rename_i valueIndex hval
      split at hdone
      · simp at hdone
      · rename_i key hkey
        split at hdone
        · simp at hdone
        · rename_i value hvalue
          have hrest : (tagLoop filterTag S way (i + 1) ks).status = .done := by
            split at hdone
            · exact ((Run.andThen_status_done _ _).1 hdone).2
            · exact hdone
          cases j with
          | zero =>
            refine ⟨k, valueIndex, by simp, by simpa using hval, ?_, ?_⟩
            · exact (List.getElem?_eq_some.1 hkey).1
            · exact (List.getElem?_eq_some.1 hvalue).1
          | succ j2 =>
            simp only [List.length_cons, Nat.add_lt_add_iff_right] at hj
            obtain ⟨k2, v2, h1, h2, h3, h4⟩ := ih (i + 1) hrest j2 hj
            refine ⟨k2, v2, by simpa using h1, ?_, h3, h4⟩
            rw [← h2]
            congr 1
            omega

theorem tagLoop_way (filterTag : String) (S : List String) (way : Way)
    (h : way.IndexSafe S) :
    tagLoop filterTag S way 0 way.Keys = ⟨expectedWayRecords filterTag S way, .done⟩ := by
  obtain ⟨hlen, hk, hv⟩ := h
  rw [tagLoop_of_indexSafe filterTag S way hv way.Keys 0 hk (by omega)]
  simp [expectedWayRecords]

theorem waysLoop_of_indexSafe (filterTag : String) (S : List String) (ways : List Way)
    (h : ∀ w ∈ ways, w.IndexSafe S) :
    waysLoop filterTag S ways =
      ⟨ways.flatMap (fun w => expectedWayRecords filterTag S w), .done⟩ := by
  induction ways with
  | nil => rfl
  | cons w ws ih =>
    unfold waysLoop
    rw [tagLoop_way filterTag S w (h w (List.mem_cons_self _ _)), Run.andThen_done,
      ih (fun x hx => h x (List.mem_cons_of_mem _ hx))]
    simp

theorem groupsLoop_of_indexSafe (filterTag : String) (S : List String)
    (groups : List PrimitiveGroup) (h : ∀ g ∈ groups, ∀ w ∈ g.Ways, w.IndexSafe S) :
    groupsLoop filterTag S groups =
      ⟨groups.flatMap (fun g => g.Ways.flatMap (fun w => expectedWayRecords filterTag S w)),
        .done⟩ := by
  induction groups with
  | nil => rfl
  | cons g gs ih =>
    unfold groupsLoop
    rw [waysLoop_of_indexSafe filterTag S g.Ways (h g (List.mem_cons_self _ _)),
      Run.andThen_done, ih (fun x hx => h x (List.mem_cons_of_mem _ hx))]
    simp

theorem waysLoop_done_lookups (filterTag : String) (S : List String) (ways : List Way)
    (h : (waysLoop filterTag S ways).status = .done) :
    ∀ w ∈ ways, w.LookupsSucceed S := by
  induction ways with
  | nil => intro w hw; simp at hw
  | cons w0 ws ih =>
    unfold waysLoop at h
    obtain ⟨h1, h2⟩ := (Run.andThen_status_done _ _).1 h
    intro w hw
    rcases List.mem_cons.1 hw with rfl | hw
    · intro i hi
      simpa using tagLoop_done_lookups filterTag S w w.Keys 0 h1 i hi
    · exact ih h2 w hw

theorem groupsLoop_done_lookups (filterTag : String) (S : List String)
    (groups : List PrimitiveGroup) (h : (groupsLoop filterTag S groups).status = .done) :
    ∀ g ∈ groups, ∀ w ∈ g.Ways, w.LookupsSucceed S := by
  induction groups with
  | nil => intro g hg; simp at hg
  | cons g0 gs ih =>
    unfold groupsLoop at h
    obtain ⟨h1, h2⟩ := (Run.andThen_status_done _ _).1 h
    intro g hg
    rcases List.mem_cons.1 hg with rfl | hg
    · exact waysLoop_done_lookups filterTag S g.Ways h1
    · exact ih h2 g hg

theorem expectedWayRecords_length (filterTag : String) (S : List String) (way : Way)
    (hlen : way.Keys.length ≤ way.Vals.length) :
    (expectedWayRecords filterTag S way).length =
      (way.Keys.filter (fun k => S[k]? = some filterTag)).length := by
  unfold expectedWayRecords
  rw [List.length_map]
  conv_rhs => rw [← List.map_fst_zip way.Keys way.Vals hlen, List.filter_map, List.length_map]
  rfl

theorem expectedWayRecords_mem (filterTag : String) (S : List String) (way : Way)
    (h : way.IndexSafe S) (r : myway) (hr : r ∈ expectedWayRecords filterTag S way) :
    r.id = way.Id ∧ r.nodeIds = decodeRefs way.Refs ∧
      ∃ i k v : Nat, way.Keys[i]? = some k ∧ way.Vals[i]? = some v ∧
        S[k]? = some filterTag ∧ S[v]? = some r.highway := by
  unfold expectedWayRecords at hr
  obtain ⟨p, hp, rfl⟩ := List.mem_map.1 hr
  obtain ⟨hpz, hpk⟩ := List.mem_filter.1 hp
  obtain ⟨i, hi⟩ := List.mem_iff_getElem?.1 hpz
  obtain ⟨hki, hvi⟩ := List.getElem?_zip_eq_some.1 hi
  have hvS : p.2 < S.length := h.2.2 p.2 (List.mem_iff_getElem?.2 ⟨i, hvi⟩)
  refine ⟨rfl, rfl, i, p.1, p.2, hki, hvi, by simpa using hpk, ?_⟩
  simp [List.getElem?_eq_getElem hvS]

theorem Run.andThen_upTo {α : Type} (r : Run α) (k : Unit → Run α) (E1 E2 : List α)
    (h1 : r.emitted <+: E1 ∧ (r.status = .done → r.emitted = E1))
    (h2 : (k ()).emitted <+: E2 ∧ ((k ()).status = .done → (k ()).emitted = E2)) :
    (r.andThen k).emitted <+: E1 ++ E2 ∧
      ((r.andThen k).status = .done → (r.andThen k).emitted = E1 ++ E2) := by
  by_cases hdone : r.status = .done
  · rw [Run.andThen_eq_of_done r k hdone]
    rw [h1.2 hdone]
    refine ⟨(List.prefix_append_right_inj E1).2 h2.1, ?_⟩
    intro hk
    simp only at hk ⊢
    rw [h2.2 hk]
  · have hsame : r.andThen k = r := by
      unfold Run.andThen
      cases hs : r.status with
      | done => exact absurd hs hdone
      | exited f => rfl
      | panicked => rfl
    rw [hsame]
    exact ⟨h1.1.trans (List.prefix_append E1 E2), fun h => absurd h hdone⟩

theorem tagLoop_upTo (filterTag : String) (S : List String) (way : Way) (keys : List Nat) :
    ∀ i : Nat,
      (tagLoop filterTag S way i keys).emitted <+:
          ((keys.zip (way.Vals.drop i)).filter (fun p => S[p.1]? = some filterTag)).map
            (fun p => ⟨way.Id, decodeRefs way.Refs, (S[p.2]?).getD ""⟩) ∧
        ((tagLoop filterTag S way i keys).status = .done →
          (tagLoop filterTag S way i keys).emitted =
            ((keys.zip (way.Vals.drop i)).filter (fun p => S[p.1]? = some filterTag)).map
              (fun p => ⟨way.Id, decodeRefs way.Refs, (S[p.2]?).getD ""⟩)) := by
  induction keys with
  | nil => intro i; simp [tagLoop]
  | cons k ks ih =>
    intro i
    unfold tagLoop
    cases hval : way.Vals[i]? with
    | none =>
      dsimp only
      exact ⟨List.nil_prefix, fun h => by cases h⟩
    | some v =>
      obtain ⟨hi, hv⟩ := List.getElem?_eq_some.1 hval
      rw [List.drop_eq_getElem_cons hi, hv, List.zip_cons_cons]
      dsimp only
      cases hkey : S[k]? with
      | none =>
        dsimp only
        exact ⟨List.nil_prefix, fun h => by cases h⟩
      | some key =>
        dsimp only
        cases hvalue : S[v]? with
        | none =>
          dsimp only
          exact ⟨List.nil_prefix, fun h => by cases h⟩
        | some value =>
          dsimp only
          by_cases hmatch : key = filterTag
          · rw [if_pos hmatch, Run.andThen_done]
            have hf : ((k, v) :: ks.zip (way.Vals.drop (i + 1))).filter
                (fun p => S[p.1]? = some filterTag) =
                (k, v) :: (ks.zip (way.Vals.drop (i + 1))).filter
                  (fun p => S[p.1]? = some filterTag) := by
              rw [List.filter_cons_of_pos (by simp [hkey, hmatch])]
            rw [hf, List.map_cons]
            simp only [hvalue, Option.getD_some, List.singleton_append]
            refine ⟨(List.prefix_cons_inj _).2 (ih (i + 1)).1, ?_⟩
            intro hd
            rw [(ih (i + 1)).2 hd]
          · rw [if_neg hmatch]
            have hf : ((k, v) :: ks.zip (way.Vals.drop (i + 1))).filter
                (fun p => S[p.1]? = some filterTag) =
                (ks.zip (way.Vals.drop (i + 1))).filter
                  (fun p => S[p.1]? = some filterTag) := by
              rw [List.filter_cons_of_neg (by simp [hkey, hmatch])]
            rw [hf]
            exact ih (i + 1)

theorem waysLoop_upTo (filterTag : String) (S : List String) (ways : List Way) :
    (waysLoop filterTag S ways).emitted <+:
        ways.flatMap (fun w => expectedWayRecords filterTag S w) ∧
      ((waysLoop filterTag S ways).status = .done →
        (waysLoop filterTag S ways).emitted =
          ways.flatMap (fun w => expectedWayRecords filterTag S w)) := by
  induction ways with
  | nil => simp [waysLoop]
  | cons w ws ih =>
    unfold waysLoop
    rw [List.flatMap_cons]
    apply Run.andThen_upTo
    · have h := tagLoop_upTo filterTag S w w.Keys 0
      simpa [expectedWayRecords] using h
    · exact ih

theorem groupsLoop_upTo (filterTag : String) (S : List String)
    (groups : List PrimitiveGroup) :
    (groupsLoop filterTag S groups).emitted <+:
        groups.flatMap
          (fun g => g.Ways.flatMap (fun w => expectedWayRecords filterTag S w)) ∧
      ((groupsLoop filterTag S groups).status = .done →
        (groupsLoop filterTag S groups).emitted =
          groups.flatMap
            (fun g => g.Ways.flatMap (fun w => expectedWayRecords filterTag S w))) := by
  induction groups with
  | nil => simp [groupsLoop]
  | cons g gs ih =>
    unfold groupsLoop
    rw [List.flatMap_cons]
    apply Run.andThen_upTo
    · exact waysLoop_upTo filterTag S g.Ways
    · exact ih

theorem waysBlock_done_of_indexSafe (filterTag : String) (b : PrimitiveBlock)
    (h : b.IndexSafe) : (findMatchingWaysBlock filterTag b).status = .done := by
  unfold findMatchingWaysBlock
  rw [groupsLoop_of_indexSafe filterTag b.Stringtable.S b.Primitivegroup h]

/-- C1: the pass emits, way by way in the order of the block, one record for
each tag pair `(keys[i], vals[i])` whose key string in the block's string table
equals the target tag, and nothing else: what it emits is always an initial
part of that list of records, it is the whole list whenever the block is run
to its end, and the block is run to its end when its tag indexes can all be
read. Each record carries the way's id, the value string of that same pair and
the way's decoded point ids, and the number of records of a way is the number
of occurrences of the target key among its keys: none, one, or `k` for a key
repeated `k` times. -/
theorem findMatchingWaysBlock_emits (filterTag : String) (b : PrimitiveBlock) :
    (findMatchingWaysBlock filterTag b).emitted <+: expectedBlockRecords filterTag b ∧
    ((findMatchingWaysBlock filterTag b).status = .done →
      (findMatchingWaysBlock filterTag b).emitted = expectedBlockRecords filterTag b) ∧
    (b.IndexSafe →
      (findMatchingWaysBlock filterTag b).status = .done ∧
      (findMatchingWaysBlock filterTag b).emitted = expectedBlockRecords filterTag b ∧
      ∀ g ∈ b.Primitivegroup, ∀ w ∈ g.Ways,
        (tagLoop filterTag b.Stringtable.S w 0 w.Keys).emitted =
          expectedWayRecords filterTag b.Stringtable.S w ∧
        (expectedWayRecords filterTag b.Stringtable.S w).length =
          (w.Keys.filter (fun k => b.Stringtable.S[k]? = some filterTag)).length ∧
        ∀ r ∈ expectedWayRecords filterTag b.Stringtable.S w,
          r.id = w.Id ∧ r.nodeIds = decodeRefs w.Refs ∧
          ∃ i k v : Nat, w.Keys[i]? = some k ∧ w.Vals[i]? = some v ∧
            b.Stringtable.S[k]? = some filterTag ∧
            b.Stringtable.S[v]? = some r.highway) := by
  have hup := groupsLoop_upTo filterTag b.Stringtable.S b.Primitivegroup
  refine ⟨hup.1, hup.2, ?_⟩
  intro h
  have hrun := groupsLoop_of_indexSafe filterTag b.Stringtable.S b.Primitivegroup h
  refine ⟨?_, ?_, ?_⟩
  · unfold findMatchingWaysBlock
    rw [hrun]
  · unfold findMatchingWaysBlock expectedBlockRecords
    rw [hrun]
  · intro g hg w hw
    have hw2 := h g hg w hw
    refine ⟨?_, expectedWayRecords_length filterTag _ w hw2.1, ?_⟩
    · rw [tagLoop_way filterTag _ w hw2]
    · intro r hr
      exact expectedWayRecords_mem filterTag _ w hw2 r hr

/-- On the example block with target `highway`: way 1 gives one record, way 2
none, and way 3, which repeats the key, gives two. -/
theorem findMatchingWaysBlock_emits_witness :
    exampleBlock.IndexSafe ∧
      (findMatchingWaysBlock "highway" exampleBlock).emitted =
        [⟨1, [1, 2], "residential"⟩, ⟨3, [], "residential"⟩, ⟨3, [], "primary"⟩] :=
  ⟨by decide, ((findMatchingWaysBlock_emits "highway" exampleBlock).2.2
    (by decide)).2.1.trans (by decide)⟩

/-- C10: on a block in which every way has at least as many value indexes as
key indexes and every key and value index lies within the string table, the
tag loop makes no out-of-range access; and whenever the block is run to its
end, the lookups `way.Vals[i]`, `S[keyIndex]` and `S[valueIndex]` have
succeeded at every position of every way's key list, whatever the key is. -/
theorem findMatchingWaysBlock_indexSafe (filterTag : String) (b : PrimitiveBlock) :
    (b.IndexSafe → (findMatchingWaysBlock filterTag b).status = .done) ∧
    ((findMatchingWaysBlock filterTag b).status = .done →
      ∀ g ∈ b.Primitivegroup, ∀ w ∈ g.Ways, w.LookupsSucceed b.Stringtable.S) := by
  constructor
  · intro h
    unfold findMatchingWaysBlock
    rw [groupsLoop_of_indexSafe filterTag b.Stringtable.S b.Primitivegroup h]
  · intro h
    exact groupsLoop_done_lookups filterTag b.Stringtable.S b.Primitivegroup h

/-- The example block is read safely; a value index outside the string table
makes the loop panic although its key, `name`, is not the target tag, and the
matching way after it is not reached. -/
theorem findMatchingWaysBlock_indexSafe_witness :
    exampleBlock.IndexSafe ∧
      (findMatchingWaysBlock "highway" exampleBlock).status = .done ∧
      findMatchingWaysBlock "highway" danglingValueBlock = ⟨[], .panicked⟩ :=
  ⟨by decide, (findMatchingWaysBlock_indexSafe "highway" exampleBlock).1 (by decide),
    by rfl⟩

/-! ## Capability validation -/

theorem checkFeatures_ok_iff (feats : List String) :
    checkFeatures feats = .ok () ↔
      ∀ feat ∈ feats, feat = "OsmSchema-V0.6" ∨ feat = "DenseNodes" := by
  induction feats with
  | nil => simp [checkFeatures]
  | cons f fs ih =>
    unfold checkFeatures
    by_cases hf : f ≠ "OsmSchema-V0.6" ∧ f ≠ "DenseNodes"
    · rw [if_pos hf]
      constructor
      · intro h; cases h
      · intro h
        rcases h f (List.mem_cons_self _ _) with h1 | h1
        · exact absurd h1 hf.1
        · exact absurd h1 hf.2
    · rw [if_neg hf, ih]
      have hf2 : f = "OsmSchema-V0.6" ∨ f = "DenseNodes" := by
        by_cases h1 : f = "OsmSchema-V0.6"
        · exact Or.inl h1
        · by_cases h2 : f = "DenseNodes"
          · exact Or.inr h2
          · exact absurd ⟨h1, h2⟩ hf
      constructor
      · intro h x hx
        rcases List.mem_cons.1 hx with rfl | hx
        · exact hf2
        · exact h x hx
      · intro h x hx
        exact h x (List.mem_cons_of_mem _ hx)

theorem checkFeatures_error (feats : List String) (e : Fatal)
    (h : checkFeatures feats = .error e) :
    ∃ feat ∈ feats, feat ≠ "OsmSchema-V0.6" ∧ feat ≠ "DenseNodes" ∧
      e = .unsupportedFeature feat := by
  induction feats with
  | nil => simp [checkFeatures] at h
  | cons f fs ih =>
    unfold checkFeatures at h
    by_cases hf : f ≠ "OsmSchema-V0.6" ∧ f ≠ "DenseNodes"
    · rw [if_pos hf] at h
      refine ⟨f, List.mem_cons_self _ _, hf.1, hf.2, ?_⟩
      injection h with h
      exact h.symm
    · rw [if_neg hf] at h
      obtain ⟨x, hx, h1, h2, h3⟩ := ih h
      exact ⟨x, List.mem_cons_of_mem _ hx, h1, h2, h3⟩

theorem checkFeatures_cases (feats : List String) :
    checkFeatures feats = .ok () ∨ ∃ e, checkFeatures feats = .error e := by
  cases h : checkFeatures feats with
  | ok u => exact Or.inl rfl
  | error e => exact Or.inr ⟨e, rfl⟩

theorem supportedFilePass_skip (c : Codec) (pre l : List blockData)
    (hpre : ∀ d ∈ pre, d.blobHeaderType ≠ "OSMHeader") :
    supportedFilePass c (pre ++ l) = supportedFilePass c l := by
  induction pre with
  | nil => rfl
  | cons d ds ih =>
    rw [List.cons_append, supportedFilePass,
      if_pos (hpre d (List.mem_cons_self _ _))]
    exact ih (fun x hx => hpre x (List.mem_cons_of_mem _ hx))

theorem supportedFilePass_header (c : Codec) (data : blockData) (rest : List blockData)
    (bytes : List Nat) (header : HeaderBlock)
    (ht : data.blobHeaderType = "OSMHeader") (hd : c.DecodeBlob data = some bytes)
    (hu : c.UnmarshalHeader bytes = some header) :
    supportedFilePass c (data :: rest) =
      match checkFeatures header.RequiredFeatures with
      | .error e => .error e
      | .ok () => supportedFilePass c rest := by
  rw [supportedFilePass, if_neg (by simp [ht])]
  simp only [hd, hu]

theorem supportedFilePass_filter (c : Codec) (blobs : List blockData) :
    supportedFilePass c blobs =
      supportedFilePass c (blobs.filter (fun d => d.blobHeaderType = "OSMHeader")) := by
  induction blobs with
  | nil => rfl
  | cons d ds ih =>
    by_cases ht : d.blobHeaderType = "OSMHeader"
    · rw [List.filter_cons_of_pos (by simpa using ht)]
      rw [supportedFilePass, supportedFilePass, if_neg (by simp [ht]), if_neg (by simp [ht])]
      rw [ih]
    · rw [List.filter_cons_of_neg (by simpa using ht)]
      rw [supportedFilePass, if_pos ht]
      exact ih

theorem supportedFilePass_congr (c c2 : Codec) (blobs : List blockData)
    (hd : ∀ d, d.blobHeaderType = "OSMHeader" → c.DecodeBlob d = c2.DecodeBlob d)
    (hu : c.UnmarshalHeader = c2.UnmarshalHeader) :
    supportedFilePass c blobs = supportedFilePass c2 blobs := by
  induction blobs with
  | nil => rfl
  | cons d ds ih =>
    by_cases ht : d.blobHeaderType = "OSMHeader"
    · rw [supportedFilePass, supportedFilePass, if_neg (by simp [ht]), if_neg (by simp [ht]),
        hd d ht, hu, ih]
    · rw [supportedFilePass, supportedFilePass, if_pos ht, if_pos ht]
      exact ih

/-- C5: for a file whose one `OSMHeader` blob decodes to a header block,
validation fails if and only if the header's required features contain a
string other than `OsmSchema-V0.6` and `DenseNodes`, and then the process exits
at the unsupported-feature check; it passes if and only if every required
feature is one of the two (the empty list and repetitions included). Blobs of
another type are never inspected: removing them, or changing what the decoder
would return on them, does not change the result. -/
theorem supportedFilePass_validates (c : Codec) :
    (∀ (pre post : List blockData) (data : blockData) (bytes : List Nat)
        (header : HeaderBlock),
      (∀ d ∈ pre, d.blobHeaderType ≠ "OSMHeader") →
      (∀ d ∈ post, d.blobHeaderType ≠ "OSMHeader") →
      data.blobHeaderType = "OSMHeader" →
      c.DecodeBlob data = some bytes →
      c.UnmarshalHeader bytes = some header →
      (supportedFilePass c (pre ++ data :: post) = .ok () ↔
        ∀ feat ∈ header.RequiredFeatures, feat = "OsmSchema-V0.6" ∨ feat = "DenseNodes") ∧
      ((∃ e, supportedFilePass c (pre ++ data :: post) = .error e) ↔
        ∃ feat ∈ header.RequiredFeatures, feat ≠ "OsmSchema-V0.6" ∧ feat ≠ "DenseNodes") ∧
      (∀ e, supportedFilePass c (pre ++ data :: post) = .error e →
        ∃ feat ∈ header.RequiredFeatures, e = .unsupportedFeature feat ∧ exitCode e = 5)) ∧
    (∀ blobs : List blockData,
      supportedFilePass c blobs =
        supportedFilePass c (blobs.filter (fun d => d.blobHeaderType = "OSMHeader"))) ∧
    (∀ (c2 : Codec) (blobs : List blockData),
      (∀ d, d.blobHeaderType = "OSMHeader" → c.DecodeBlob d = c2.DecodeBlob d) →
      c.UnmarshalHeader = c2.UnmarshalHeader →
      supportedFilePass c blobs = supportedFilePass c2 blobs) := by
  refine ⟨?_, supportedFilePass_filter c, fun c2 blobs hd hu =>
    supportedFilePass_congr c c2 blobs hd hu⟩
  intro pre post data bytes header hpre hpost ht hd hu
  have hpost2 : supportedFilePass c post = .ok () := by
    have := supportedFilePass_skip c post [] hpost
    rw [List.append_nil] at this
    rw [this]
    rfl
  have hrun : supportedFilePass c (pre ++ data :: post) =
      checkFeatures header.RequiredFeatures := by
    rw [supportedFilePass_skip c pre _ hpre, supportedFilePass_header c data post bytes header ht hd hu]
    rcases checkFeatures_cases header.RequiredFeatures with h | ⟨e, h⟩
    · rw [h]; exact hpost2
    · rw [h]
  rw [hrun]
  refine ⟨checkFeatures_ok_iff _, ?_, ?_⟩
  · constructor
    · rintro ⟨e, he⟩
      obtain ⟨f, hf, h1, h2, -⟩ := checkFeatures_error _ e he
      exact ⟨f, hf, h1, h2⟩
    · rintro ⟨f, hf, h1, h2⟩
      rcases checkFeatures_cases header.RequiredFeatures with h | h
      · rcases (checkFeatures_ok_iff _).1 h f hf with h3 | h3
        · exact absurd h3 h1
        · exact absurd h3 h2
      · exact h
  · intro e he
    obtain ⟨f, hf, -, -, h3⟩ := checkFeatures_error _ e he
    exact ⟨f, hf, h3, by rw [h3]; rfl⟩

/-- The example file, whose header repeats a supported feature, passes; a
header that requires `HistoricalInformation` makes the pass exit. -/
theorem supportedFilePass_validates_witness :
    supportedFilePass exampleCodec exampleBlobs = .ok () ∧
      supportedFilePass exampleCodec [⟨"OSMData", [10]⟩, ⟨"OSMHeader", [1]⟩] =
        .error (.unsupportedFeature "HistoricalInformation") ∧
      supportedFilePass exampleCodec [⟨"OSMHeader", [2]⟩] = .ok () :=
  ⟨((supportedFilePass_validates exampleCodec).1 [] [⟨"OSMData", [10]⟩, ⟨"Other", [77]⟩]
      ⟨"OSMHeader", [0]⟩ [0] ⟨["OsmSchema-V0.6", "DenseNodes", "DenseNodes"]⟩
      (by decide) (by decide) (by decide) rfl rfl).1.2 (by decide),
    by rfl, by rfl⟩

/-! ## Exit codes -/

/-- C7, as stated, fails: a blob-header read error and a failure to create an
output file belong to different classes and both exit with code 2; an
unsupported feature and a header-block decode error both exit with code 5. -/
theorem exitCode_classes_collide :
    (failureClass .blobHeaderRead ≠ failureClass .waysFileCreate ∧
      exitCode .blobHeaderRead = exitCode .waysFileCreate) ∧
    (failureClass (.unsupportedFeature "HistoricalInformation") ≠ failureClass .headerDecode ∧
      exitCode (.unsupportedFeature "HistoricalInformation") = exitCode .headerDecode) ∧
    ¬ (∀ f g : Fatal, failureClass f ≠ failureClass g → exitCode f ≠ exitCode g) :=
  ⟨by decide, by decide, fun h => h .blobHeaderRead .waysFileCreate (by decide) (by decide)⟩

/-- C7, amended: every place of failure exits with a nonzero code; the code is
1 exactly for the open-input class, 2 exactly for the framing-read and
output-creation classes, 5 exactly for an unsupported feature and for the two
decode errors of the header block, 6 exactly for the two decode errors of a
data block; hence two places of different classes have different codes unless
they share 2 (framing read, output creation) or 5 (unsupported feature, header
block decode). -/
theorem exitCode_by_class (f g : Fatal) :
    exitCode f ≠ 0 ∧
    (exitCode f = 1 ↔ failureClass f = .openInput) ∧
    (exitCode f = 2 ↔ failureClass f = .framingRead ∨ failureClass f = .outputCreate) ∧
    (exitCode f = 5 ↔
      failureClass f = .unsupportedFeature ∨ f = .headerBlobRead ∨ f = .headerDecode) ∧
    (exitCode f = 6 ↔ f = .dataBlobDecode ∨ f = .dataDecode) ∧
    (failureClass f ≠ failureClass g →
      exitCode f ≠ exitCode g ∨
      (exitCode f = 2 ∧ exitCode g = 2) ∨ (exitCode f = 5 ∧ exitCode g = 5)) := by
  refine ⟨?_, ?_, ?_, ?_, ?_, ?_⟩
  · cases f <;> simp [exitCode]
  · cases f <;> simp [exitCode, failureClass]
  · cases f <;> simp [exitCode, failureClass]
  · cases f <;> simp [exitCode, failureClass]
  · cases f <;> simp [exitCode]
  · cases f <;> cases g <;> simp [exitCode, failureClass]

/-- The open-input failure and a blob-header read error: different classes,
codes 1 and 2. -/
theorem exitCode_by_class_witness :
    failureClass .openInput ≠ failureClass .blobHeaderRead ∧
      (exitCode .openInput ≠ exitCode .blobHeaderRead ∨
        (exitCode .openInput = 2 ∧ exitCode .blobHeaderRead = 2) ∨
        (exitCode .openInput = 5 ∧ exitCode .blobHeaderRead = 5)) :=
  ⟨by decide, (exitCode_by_class .openInput .blobHeaderRead).2.2.2.2.2 (by decide)⟩

/-! ## The way output row -/

theorem digitChar_ne_comma (d : Nat) (h : d < 10) : Nat.digitChar d ≠ ',' := by
  interval_cases d <;> decide

theorem toDigitsCore_no_comma (fuel : Nat) :
    ∀ (n : Nat) (acc : List Char), ',' ∉ acc → ',' ∉ Nat.toDigitsCore 10 fuel n acc := by
  induction fuel with
  | zero => intro n acc h; simpa [Nat.toDigitsCore] using h
  | succ fuel ih =>
    intro n acc h
    have hd : ',' ∉ Nat.digitChar (n % 10) :: acc := by
      intro hm
      rcases List.mem_cons.1 hm with hm | hm
      · exact digitChar_ne_comma _ (Nat.mod_lt _ (by decide)) hm.symm
      · exact h hm
    unfold Nat.toDigitsCore
    dsimp only
    split
    · exact hd
    · exact ih _ _ hd

theorem fmtD_no_comma (v : Int) : (fmtD v).data.count ',' = 0 := by
  have hrepr : ∀ n : Nat, ',' ∉ (Nat.repr n).data := fun n =>
    toDigitsCore_no_comma (n + 1) n [] (by simp)
  rw [List.count_eq_zero]
  unfold fmtD
  split
  · intro hm
    rw [String.data_append] at hm
    rcases List.mem_append.1 hm with hm | hm
    · revert hm; decide
    · exact hrepr _ hm
  · exact hrepr _

theorem intercalate_go_data (s : String) (l : List String) :
    ∀ acc : String, (String.intercalate.go acc s l).data =
      acc.data ++ l.flatMap (fun a => s.data ++ a.data) := by
  induction l with
  | nil => intro acc; simp [String.intercalate.go]
  | cons a as ih => intro acc; simp [String.intercalate.go, ih]

theorem count_comma_pieces (ps : List Int) :
    ((ps.map fmtD).flatMap (fun a => ",".data ++ a.data)).count ',' = ps.length := by
  induction ps with
  | nil => rfl
  | cons p ps ih =>
    rw [List.map_cons, List.flatMap_cons, List.count_append, List.count_append, ih,
      fmtD_no_comma]
    simp
    omega

theorem wayRow_data_cons (id : Int) (hw : String) (p : Int) (ps : List Int) :
    (wayRow ⟨id, p :: ps, hw⟩).data =
      (fmtD id).data ++ (',' :: hw.data) ++
        ((p :: ps).map fmtD).flatMap (fun a => ",".data ++ a.data) ++ ['\n'] := by
  simp [wayRow, String.intercalate, intercalate_go_data]

theorem specWayRow_data (way : myway) :
    (specWayRow way).data =
      (fmtD way.id).data ++ (',' :: way.highway.data) ++
        (way.nodeIds.map fmtD).flatMap (fun a => ",".data ++ a.data) ++ ['\n'] := by
  simp [specWayRow, String.intercalate, intercalate_go_data]

/-- C6, as stated, fails at `n = 0`: for a way without point ids the code
writes `1,residential,` and a newline, with a trailing comma and so three
columns, where the comma-join of `[decimal(w), v]` is `1,residential`. -/
theorem wayRow_no_points_trailing_comma :
    wayRow ⟨1, [], "residential"⟩ = "1,residential,\n" ∧
      specWayRow ⟨1, [], "residential"⟩ = "1,residential\n" ∧
      wayRow ⟨1, [], "residential"⟩ ≠ specWayRow ⟨1, [], "residential"⟩ ∧
      columnCount (wayRow ⟨1, [], "residential"⟩) = 3 := by
  decide

/-- C6, amended: for a way with at least one point id the text written is
exactly the comma-join of `[decimal(w), v, decimal(p_1), ..., decimal(p_n)]`
followed by a newline, the point ids in their order; it has `n + 2` columns
plus one for every comma inside the tag value. For a way without point ids
the text is `decimal(w)`, a comma, `v`, a comma and a newline: three columns,
the last one empty (plus one for every comma inside the tag value). -/
theorem wayRow_format (way : myway) :
    (way.nodeIds ≠ [] →
      wayRow way = specWayRow way ∧
      columnCount (wayRow way) = way.nodeIds.length + 2 + way.highway.data.count ',') ∧
    (way.nodeIds = [] →
      wayRow way = fmtD way.id ++ "," ++ way.highway ++ ",\n" ∧
      columnCount (wayRow way) = 3 + way.highway.data.count ',') := by
  obtain ⟨id, ids, hw⟩ := way
  constructor
  · intro hne
    cases ids with
    | nil => exact absurd rfl hne
    | cons p ps =>
      have heq : wayRow ⟨id, p :: ps, hw⟩ = specWayRow ⟨id, p :: ps, hw⟩ := by
        apply String.ext
        rw [wayRow_data_cons, specWayRow_data]
      refine ⟨heq, ?_⟩
      unfold columnCount
      rw [wayRow_data_cons, List.count_append, List.count_append, List.count_append,
        count_comma_pieces, fmtD_no_comma]
      simp
      omega
  · intro hnil
    simp only at hnil
    subst hnil
    have heq : wayRow ⟨id, [], hw⟩ = fmtD id ++ "," ++ hw ++ ",\n" := by
      apply String.ext
      simp [wayRow, String.intercalate]
    refine ⟨heq, ?_⟩
    unfold columnCount
    rw [heq]
    simp only [String.data_append, List.count_append, fmtD_no_comma]
    simp
    omega

/-- A way with two point ids: four columns, the ids in their order. -/
theorem wayRow_format_witness :
    wayRow ⟨1, [1, 2], "residential"⟩ = "1,residential,1,2\n" ∧
      columnCount (wayRow ⟨1, [1, 2], "residential"⟩) = 4 :=
  have h := (wayRow_format ⟨1, [1, 2], "residential"⟩).1 (by decide)
  ⟨h.1.trans (by decide), h.2.trans (by decide)⟩

/-! ## The ownership map and the point filter -/

theorem ownersWayLoop_true_iff (way : List Int) :
    ∀ (m : Int → Bool) (p : Int), ownersWayLoop m way p = true ↔ m p = true ∨ p ∈ way := by
  induction way with
  | nil => intro m p; simp [ownersWayLoop]
  | cons nodeId rest ih =>
    intro m p
    unfold ownersWayLoop
    by_cases hm : m nodeId = false
    · rw [if_pos hm, ih]
      by_cases hp : p = nodeId
      · subst hp; simp
      · simp [Function.update_noteq hp, hp]
    · rw [if_neg hm, ih]
      have hm2 : m nodeId = true := by simpa using hm
      constructor
      · rintro (h | h)
        · exact Or.inl h
        · exact Or.inr (List.mem_cons_of_mem _ h)
      · rintro (h | h)
        · exact Or.inl h
        · rcases List.mem_cons.1 h with rfl | h
          · exact Or.inl hm2
          · exact Or.inr h

theorem ownersLoop_true_iff (refs : List (List Int)) :
    ∀ (m : Int → Bool) (p : Int),
      ownersLoop m refs p = true ↔ m p = true ∨ ∃ way ∈ refs, p ∈ way := by
  induction refs with
  | nil => intro m p; simp [ownersLoop]
  | cons way rest ih =>
    intro m p
    unfold ownersLoop
    rw [ih, ownersWayLoop_true_iff]
    constructor
    · rintro ((h | h) | ⟨w, hw, h⟩)
      · exact Or.inl h
      · exact Or.inr ⟨way, List.mem_cons_self _ _, h⟩
      · exact Or.inr ⟨w, List.mem_cons_of_mem _ hw, h⟩
    · rintro (h | ⟨w, hw, h⟩)
      · exact Or.inl (Or.inl h)
      · rcases List.mem_cons.1 hw with rfl | hw
        · exact Or.inl (Or.inr h)
        · exact Or.inr ⟨w, hw, h⟩

theorem buildNodeOwners_true_iff (wayNodeRefs : List (List Int)) (p : Int) :
    buildNodeOwners wayNodeRefs p = true ↔ ∃ way ∈ wayNodeRefs, p ∈ way := by
  unfold buildNodeOwners
  rw [ownersLoop_true_iff]
  simp

theorem nodeIdsOf_append (l1 l2 : List NodeEvent) :
    nodeIdsOf (l1 ++ l2) = nodeIdsOf l1 ++ nodeIdsOf l2 := by
  induction l1 with
  | nil => rfl
  | cons e es ih => cases e <;> simp [nodeIdsOf, ih]

theorem pendingCountN_append (l1 l2 : List NodeEvent) :
    pendingCountN (l1 ++ l2) = pendingCountN l1 + pendingCountN l2 := by
  induction l1 with
  | nil => simp [pendingCountN]
  | cons e es ih =>
    cases e <;> simp [pendingCountN, ih]
    omega

theorem pendingCountW_append (l1 l2 : List WayEvent) :
    pendingCountW (l1 ++ l2) = pendingCountW l1 + pendingCountW l2 := by
  induction l1 with
  | nil => simp [pendingCountW]
  | cons e es ih =>
    cases e <;> simp [pendingCountW, ih]
    omega

theorem nodeIdsOf_nodesLoop (owners : Int → Bool) (nodes : List AbsNode) :
    nodeIdsOf (nodesLoop owners nodes) =
      (nodes.map AbsNode.GetNodeId).filter (fun p => owners p) := by
  induction nodes with
  | nil => rfl
  | cons a as ih =>
    unfold nodesLoop
    by_cases h : owners a.GetNodeId = false
    · simp only [h, if_true, List.map_cons]
      rw [ih, List.filter_cons_of_neg (by simp [h])]
    · have h2 : owners a.GetNodeId = true := by simpa using h
      simp only [h2, Bool.true_eq_false, if_false, List.map_cons, nodeIdsOf]
      rw [ih, List.filter_cons_of_pos (by simp [h2])]

theorem pendingCountN_nodesLoop (owners : Int → Bool) (nodes : List AbsNode) :
    pendingCountN (nodesLoop owners nodes) = 0 := by
  induction nodes with
  | nil => rfl
  | cons a as ih =>
    unfold nodesLoop
    by_cases h : owners a.GetNodeId = false
    · simp only [h, if_true]
      exact ih
    · have h2 : owners a.GetNodeId = true := by simpa using h
      simp only [h2, Bool.true_eq_false, if_false, pendingCountN]
      exact ih

theorem pendingCountW_wayEvents (ws : List myway) :
    pendingCountW (wayEvents ws) = 0 := by
  induction ws with
  | nil => rfl
  | cons w ws ih =>
    unfold wayEvents at ih ⊢
    simpa [pendingCountW] using ih

theorem datasetPointIds_cons (c : Codec) (d : blockData) (ds : List blockData) :
    datasetPointIds c (d :: ds) = datasetPointIds c [d] ++ datasetPointIds c ds := by
  simp [datasetPointIds]

theorem nodesWorkerBlob_ids (c : Codec) (owners : Int → Bool) (data : blockData) :
    nodeIdsOf (nodesWorkerBlob c owners data).emitted =
      (datasetPointIds c [data]).filter (fun p => owners p) := by
  unfold nodesWorkerBlob datasetPointIds dataBlockOf
  by_cases ht : data.blobHeaderType = "OSMData"
  · cases hd : c.DecodeBlob data with
    | none => simp [ht, hd, Run.andThen, nodeIdsOf]
    | some bytes =>
      cases hu : c.UnmarshalPrimitive bytes with
      | none => simp [ht, hd, hu, Run.andThen, nodeIdsOf]
      | some b =>
        simp [ht, hd, hu, Run.andThen, nodeIdsOf_append, nodeIdsOf_nodesLoop, nodeIdsOf]
  · simp [ht, Run.andThen, nodeIdsOf]

theorem nodesWorkerBlob_done_iff (c : Codec) (owners : Int → Bool) (data : blockData) :
    (nodesWorkerBlob c owners data).status = .done ↔
      (data.blobHeaderType = "OSMData" → (dataBlockOf c data).isSome) := by
  unfold nodesWorkerBlob dataBlockOf
  by_cases ht : data.blobHeaderType = "OSMData"
  · cases hd : c.DecodeBlob data with
    | none => simp [ht, hd, Run.andThen]
    | some bytes =>
      cases hu : c.UnmarshalPrimitive bytes with
      | none => simp [ht, hd, hu, Run.andThen]
      | some b => simp [ht, hd, hu, Run.andThen]
  · simp [ht, Run.andThen]

theorem nodesWorkerBlob_pending (c : Codec) (owners : Int → Bool) (data : blockData)
    (h : (nodesWorkerBlob c owners data).status = .done) :
    pendingCountN (nodesWorkerBlob c owners data).emitted = 1 := by
  unfold nodesWorkerBlob at h ⊢
  by_cases ht : data.blobHeaderType = "OSMData"
  · cases hd : c.DecodeBlob data with
    | none => simp [ht, hd, Run.andThen] at h
    | some bytes =>
      cases hu : c.UnmarshalPrimitive bytes with
      | none => simp [ht, hd, hu, Run.andThen] at h
      | some b =>
        simp [ht, hd, hu, Run.andThen, pendingCountN_append, pendingCountN_nodesLoop, pendingCountN]
  · simp [ht, Run.andThen, pendingCountN]

theorem nodesWorker_sound (c : Codec) (owners : Int → Bool) (share : List blockData) :
    ∀ id ∈ nodeIdsOf (nodesWorker c owners share).emitted,
      owners id = true ∧ id ∈ datasetPointIds c share := by
  induction share with
  | nil => intro id hid; simp [nodesWorker, nodeIdsOf] at hid
  | cons d ds ih =>
    intro id hid
    have hblob : ∀ x ∈ nodeIdsOf (nodesWorkerBlob c owners d).emitted,
        owners x = true ∧ x ∈ datasetPointIds c (d :: ds) := by
      intro x hx
      rw [nodesWorkerBlob_ids] at hx
      obtain ⟨h1, h2⟩ := List.mem_filter.1 hx
      rw [datasetPointIds_cons]
      exact ⟨h2, List.mem_append_left _ h1⟩
    unfold nodesWorker at hid
    by_cases hdone : (nodesWorkerBlob c owners d).status = .done
    · rw [Run.andThen_eq_of_done _ _ hdone] at hid
      simp only [nodeIdsOf_append] at hid
      rcases List.mem_append.1 hid with h | h
      · exact hblob id h
      · obtain ⟨h1, h2⟩ := ih id h
        rw [datasetPointIds_cons]
        exact ⟨h1, List.mem_append_right _ h2⟩
    · have : (nodesWorkerBlob c owners d).andThen (fun _ => nodesWorker c owners ds) =
          nodesWorkerBlob c owners d := by
        unfold Run.andThen
        cases hs : (nodesWorkerBlob c owners d).status with
        | done => exact absurd hs hdone
        | exited f => rfl
        | panicked => rfl
      rw [this] at hid
      exact hblob id hid

theorem nodesWorker_of_decodes (c : Codec) (owners : Int → Bool) (share : List blockData)
    (h : AllDataDecodes c share) :
    (nodesWorker c owners share).status = .done ∧
      nodeIdsOf (nodesWorker c owners share).emitted =
        (datasetPointIds c share).filter (fun p => owners p) := by
  induction share with
  | nil => simp [nodesWorker, nodeIdsOf, datasetPointIds]
  | cons d ds ih =>
    have hd : (nodesWorkerBlob c owners d).status = .done :=
      (nodesWorkerBlob_done_iff c owners d).2 (h d (List.mem_cons_self _ _))
    obtain ⟨ih1, ih2⟩ := ih (fun x hx => h x (List.mem_cons_of_mem _ hx))
    unfold nodesWorker
    rw [Run.andThen_eq_of_done _ _ hd]
    refine ⟨ih1, ?_⟩
    simp only [nodeIdsOf_append]
    rw [nodesWorkerBlob_ids, ih2]
    conv_rhs => rw [datasetPointIds_cons, List.filter_append]

theorem nodesWorker_pending (c : Codec) (owners : Int → Bool) (share : List blockData)
    (h : (nodesWorker c owners share).status = .done) :
    pendingCountN (nodesWorker c owners share).emitted = share.length := by
  induction share with
  | nil => simp [nodesWorker, pendingCountN]
  | cons d ds ih =>
    unfold nodesWorker at h ⊢
    obtain ⟨h1, h2⟩ := (Run.andThen_status_done _ _).1 h
    rw [Run.andThen_eq_of_done _ _ h1]
    simp only [pendingCountN_append, List.length_cons]
    rw [nodesWorkerBlob_pending c owners d h1, ih h2]
    omega

theorem waysWorkerBlob_pending (c : Codec) (filterTag : String) (data : blockData)
    (h : (waysWorkerBlob c filterTag data).status = .done) :
    pendingCountW (waysWorkerBlob c filterTag data).emitted = 1 := by
  unfold waysWorkerBlob at h ⊢
  by_cases ht : data.blobHeaderType = "OSMData"
  · cases hd : c.DecodeBlob data with
    | none => simp [ht, hd, Run.andThen] at h
    | some bytes =>
      cases hu : c.UnmarshalPrimitive bytes with
      | none => simp [ht, hd, hu, Run.andThen] at h
      | some b =>
        simp only [ht, hd, hu, if_true] at h ⊢
        obtain ⟨h1, -⟩ := (Run.andThen_status_done _ _).1 h
        rw [Run.andThen_eq_of_done _ _ h1]
        simp [pendingCountW_append, pendingCountW_wayEvents, pendingCountW]
  · simp [ht, Run.andThen, pendingCountW]

theorem waysWorker_pending (c : Codec) (filterTag : String) (share : List blockData)
    (h : (waysWorker c filterTag share).status = .done) :
    pendingCountW (waysWorker c filterTag share).emitted = share.length := by
  induction share with
  | nil => simp [waysWorker, pendingCountW]
  | cons d ds ih =>
    unfold waysWorker at h ⊢
    obtain ⟨h1, h2⟩ := (Run.andThen_status_done _ _).1 h
    rw [Run.andThen_eq_of_done _ _ h1]
    simp only [pendingCountW_append, List.length_cons]
    rw [waysWorkerBlob_pending c filterTag d h1, ih h2]
    omega

theorem nodeIdsOf_flatMap {α : Type} (l : List α) (f : α → List NodeEvent) :
    nodeIdsOf (l.flatMap f) = l.flatMap (fun a => nodeIdsOf (f a)) := by
  induction l with
  | nil => rfl
  | cons a as ih => simp [List.flatMap_cons, nodeIdsOf_append, ih]

theorem pendingCountN_flatMap {α : Type} (l : List α) (f : α → List NodeEvent) :
    pendingCountN (l.flatMap f) = (l.map (fun a => pendingCountN (f a))).sum := by
  induction l with
  | nil => rfl
  | cons a as ih => simp [List.flatMap_cons, pendingCountN_append, ih]

theorem pendingCountW_flatMap {α : Type} (l : List α) (f : α → List WayEvent) :
    pendingCountW (l.flatMap f) = (l.map (fun a => pendingCountW (f a))).sum := by
  induction l with
  | nil => rfl
  | cons a as ih => simp [List.flatMap_cons, pendingCountW_append, ih]

theorem datasetPointIds_flatten (c : Codec) (shares : List (List blockData)) :
    datasetPointIds c shares.flatten = shares.flatMap (datasetPointIds c) := by
  induction shares with
  | nil => rfl
  | cons s ss ih =>
    rw [List.flatten_cons, List.flatMap_cons, ← ih]
    simp [datasetPointIds]

theorem datasetPointIds_perm (c : Codec) {l1 l2 : List blockData} (h : l1.Perm l2) :
    (datasetPointIds c l1).Perm (datasetPointIds c l2) :=
  List.Perm.flatMap_right _ h

theorem allDataDecodes_share (c : Codec) (blobs : List blockData)
    (shares : List (List blockData)) (hshares : shares.flatten.Perm blobs)
    (hdec : AllDataDecodes c blobs) : ∀ share ∈ shares, AllDataDecodes c share := by
  intro share hs data hd
  exact hdec data (hshares.mem_iff.1 (List.mem_flatten.2 ⟨share, hs, hd⟩))

theorem nodesPass_ids_of_decodes (c : Codec) (wayNodeRefs : List (List Int))
    (shares : List (List blockData)) (h : ∀ share ∈ shares, AllDataDecodes c share) :
    nodeIdsOf (nodesPassEvents c wayNodeRefs shares) =
      (datasetPointIds c shares.flatten).filter (fun p => buildNodeOwners wayNodeRefs p) := by
  unfold nodesPassEvents
  rw [nodeIdsOf_flatMap, datasetPointIds_flatten, List.filter_flatMap]
  induction shares with
  | nil => rfl
  | cons s ss ih =>
    rw [List.flatMap_cons, List.flatMap_cons,
      (nodesWorker_of_decodes c _ s (h s (List.mem_cons_self _ _))).2,
      ih (fun x hx => h x (List.mem_cons_of_mem _ hx))]

theorem sum_lengths_flatten {α : Type} (shares : List (List α)) :
    (shares.map List.length).sum = shares.flatten.length := by
  rw [List.length_flatten]

theorem countLoop_eq_some_iff (total : Int) :
    ∀ (arrivals : Nat) (b k : Int),
      countLoop total b arrivals = some k ↔ k = total ∧ b < total ∧ total - b ≤ arrivals := by
  intro arrivals
  induction arrivals with
  | zero =>
    intro b k
    simp only [countLoop]
    constructor
    · intro h; cases h
    · rintro ⟨-, h1, h2⟩
      simp at h2
      omega
  | succ n ih =>
    intro b k
    simp only [countLoop]
    by_cases hb : b + 1 = total
    · rw [if_pos hb]
      constructor
      · intro h
        injection h with h
        refine ⟨by omega, by omega, ?_⟩
        push_cast
        omega
      · rintro ⟨h1, -, -⟩
        rw [h1, hb]
    · rw [if_neg hb, ih]
      push_cast
      constructor
      · rintro ⟨h1, h2, h3⟩
        exact ⟨h1, by omega, by omega⟩
      · rintro ⟨h1, h2, h3⟩
        exact ⟨h1, by omega, by omega⟩

theorem sendsCovered_mono (P : Int → Prop) (t : List NodeEvent) :
    ∀ (ok ok2 : Prop), (ok → ok2) → SendsCovered P ok t → SendsCovered P ok2 t := by
  induction t with
  | nil => intro ok ok2 _ _; trivial
  | cons e es ih =>
    intro ok ok2 himp h
    cases e with
    | assign v => exact h
    | send => exact ⟨himp h.1, ih ok ok2 himp h.2⟩
    | pending => exact ih ok ok2 himp h
    | exit => exact ih ok ok2 himp h

theorem sendsCovered_append (P : Int → Prop) (t1 t2 : List NodeEvent)
    (h2 : SendsCovered P False t2) :
    ∀ ok : Prop, SendsCovered P ok t1 → SendsCovered P ok (t1 ++ t2) := by
  induction t1 with
  | nil => intro ok _; exact sendsCovered_mono P t2 False ok False.elim h2
  | cons e es ih =>
    intro ok h
    cases e with
    | assign v => exact ⟨h.1, ih True h.2⟩
    | send => exact ⟨h.1, ih ok h.2⟩
    | pending => exact ih ok h
    | exit => exact ih ok h

theorem sendsCovered_of_ids (P : Int → Prop) (t : List NodeEvent) :
    ∀ ok : Prop, SendsCovered (fun _ => True) ok t → (∀ id ∈ nodeIdsOf t, P id) →
      SendsCovered P ok t := by
  induction t with
  | nil => intro ok _ _; trivial
  | cons e es ih =>
    intro ok h hid
    cases e with
    | assign v =>
      exact ⟨hid v.id (by simp [nodeIdsOf]),
        ih True h.2 (fun x hx => hid x (by simp [nodeIdsOf, hx]))⟩
    | send => exact ⟨h.1, ih ok h.2 (fun x hx => hid x (by simpa [nodeIdsOf] using hx))⟩
    | pending => exact ih ok h (fun x hx => hid x (by simpa [nodeIdsOf] using hx))
    | exit => exact ih ok h (fun x hx => hid x (by simpa [nodeIdsOf] using hx))

theorem sendsCovered_nodesLoop (owners : Int → Bool) (nodes : List AbsNode) :
    SendsCovered (fun _ => True) False (nodesLoop owners nodes) := by
  induction nodes with
  | nil => trivial
  | cons a as ih =>
    unfold nodesLoop
    by_cases h : owners a.GetNodeId = false
    · simp only [h, if_true]
      exact ih
    · have h2 : owners a.GetNodeId = true := by simpa using h
      simp only [h2, Bool.true_eq_false, if_false]
      exact ⟨trivial, trivial, sendsCovered_mono _ _ False True False.elim ih⟩

theorem Run.andThen_emitted_cases {α : Type} (r : Run α) (k : Unit → Run α) :
    (r.andThen k).emitted = r.emitted ∨
      (r.andThen k).emitted = r.emitted ++ (k ()).emitted := by
  unfold Run.andThen
  cases r.status with
  | done => exact Or.inr rfl
  | exited f => exact Or.inl rfl
  | panicked => exact Or.inl rfl

theorem sendsCovered_nodesWorkerBlob (c : Codec) (owners : Int → Bool) (data : blockData) :
    SendsCovered (fun _ => True) False (nodesWorkerBlob c owners data).emitted := by
  unfold nodesWorkerBlob
  by_cases ht : data.blobHeaderType = "OSMData"
  · cases hd : c.DecodeBlob data with
    | none => simp [ht, hd, Run.andThen, SendsCovered]
    | some bytes =>
      cases hu : c.UnmarshalPrimitive bytes with
      | none => simp [ht, hd, hu, Run.andThen, SendsCovered]
      | some b =>
        simp only [ht, hd, hu, if_true, Run.andThen]
        exact sendsCovered_append _ _ [NodeEvent.pending] (by simp [SendsCovered]) False
          (sendsCovered_nodesLoop owners _)
  · simp [ht, Run.andThen, SendsCovered]

theorem sendsCovered_nodesWorker (c : Codec) (owners : Int → Bool)
    (share : List blockData) :
    SendsCovered (fun _ => True) False (nodesWorker c owners share).emitted := by
  induction share with
  | nil => simp [nodesWorker, SendsCovered]
  | cons d ds ih =>
    unfold nodesWorker
    rcases Run.andThen_emitted_cases (nodesWorkerBlob c owners d)
      (fun _ => nodesWorker c owners ds) with h | h
    · rw [h]
      exact sendsCovered_nodesWorkerBlob c owners d
    · rw [h]
      exact sendsCovered_append _ _ _ ih _ (sendsCovered_nodesWorkerBlob c owners d)

theorem nodesPassInv_set (P : Int → Prop) (s : NodesPassState) (w : Nat)
    (ws ws2 : NodeWorkerState) (h : NodesPassInv P s) (hw : s.workers[w]? = some ws)
    (hcov : SendsCovered P (P ws2.n.id) ws2.todo) (hn : P ws.n.id → P ws2.n.id) :
    (∀ x ∈ s.workers.set w ws2, SendsCovered P (P x.n.id) x.todo) ∧
      (∀ w0, s.holding = some w0 →
        ∃ x, (s.workers.set w ws2)[w0]? = some x ∧ P x.n.id) ∧
      (P ws2.n.id → ∃ x, (s.workers.set w ws2)[w]? = some x ∧ P x.n.id) := by
  have hlt : w < s.workers.length := (List.getElem?_eq_some.1 hw).1
  refine ⟨?_, ?_, ?_⟩
  · intro x hx
    rcases List.mem_or_eq_of_mem_set hx with hx | hx
    · exact h.workers x hx
    · rw [hx]; exact hcov
  · intro w0 hw0
    obtain ⟨x, hx, hp⟩ := h.holding w0 hw0
    by_cases heq : w = w0
    · subst heq
      refine ⟨ws2, by rw [List.getElem?_set_self hlt], hn ?_⟩
      rw [hw] at hx
      injection hx with hx
      rw [hx]; exact hp
    · exact ⟨x, by rw [List.getElem?_set_ne heq]; exact hx, hp⟩
  · intro hp
    exact ⟨ws2, by rw [List.getElem?_set_self hlt], hp⟩

theorem workerStep_inv (P : Int → Prop) (s : NodesPassState) (w : Nat)
    (ws : NodeWorkerState) (h : NodesPassInv P s) (hw : s.workers[w]? = some ws) :
    NodesPassInv P (workerStep s w ws) := by
  have hws : SendsCovered P (P ws.n.id) ws.todo :=
    h.workers ws (List.mem_iff_getElem?.2 ⟨w, hw⟩)
  unfold workerStep
  cases htodo : ws.todo with
  | nil => exact h
  | cons e rest =>
    rw [htodo] at hws
    cases e with
    | assign v =>
      have hv : P v.id := hws.1
      have hcov : SendsCovered P (P v.id) rest :=
        sendsCovered_mono P rest True (P v.id) (fun _ => hv) hws.2
      obtain ⟨h1, h2, -⟩ := nodesPassInv_set P s w ws ⟨v, rest⟩ h hw hcov (fun _ => hv)
      exact ⟨h.rows, h1, h2⟩
    | send =>
      obtain ⟨h1, h2, h3⟩ := nodesPassInv_set P s w ws ⟨ws.n, rest⟩ h hw hws.2 id
      cases hh : s.holding with
      | some w0 => simp only; exact h
      | none =>
        simp only
        refine ⟨h.rows, h1, ?_⟩
        intro w0 hw0
        injection hw0 with hw0
        subst hw0
        exact h3 hws.1
    | pending =>
      obtain ⟨h1, h2, -⟩ := nodesPassInv_set P s w ws ⟨ws.n, rest⟩ h hw hws id
      exact ⟨h.rows, h1, h2⟩
    | exit =>
      obtain ⟨h1, h2, -⟩ := nodesPassInv_set P s w ws ⟨ws.n, rest⟩ h hw hws id
      cases hh : s.holding with
      | some w0 => simp only; exact h
      | none =>
        simp only
        refine ⟨h.rows, h1, ?_⟩
        intro w0 hw0
        exact h2 w0 (by rw [hh]; exact hw0)

theorem nodesPassStep_inv (P : Int → Prop) (s : NodesPassState) (a : NodesPassStep)
    (h : NodesPassInv P s) : NodesPassInv P (nodesPassStep s a) := by
  cases a with
  | work w =>
    simp only [nodesPassStep]
    cases hw : s.workers[w]? with
    | none => exact h
    | some ws => exact workerStep_inv P s w ws h hw
  | write =>
    simp only [nodesPassStep]
    cases hh : s.holding with
    | none => exact h
    | some w =>
      obtain ⟨x, hx, hp⟩ := h.holding w hh
      simp only [hx]
      refine ⟨?_, h.workers, ?_⟩
      · intro r hr
        rcases List.mem_append.1 hr with hr | hr
        · exact h.rows r hr
        · rw [List.mem_singleton.1 hr]; exact hp
      · intro w0 hw0
        cases hw0

theorem foldl_nodesPassStep_inv (P : Int → Prop) (schedule : List NodesPassStep) :
    ∀ s : NodesPassState, NodesPassInv P s →
      NodesPassInv P (schedule.foldl nodesPassStep s) := by
  induction schedule with
  | nil => intro s h; exact h
  | cons a as ih =>
    intro s h
    exact ih _ (nodesPassStep_inv P s a h)

theorem nodesPassInit_inv (c : Codec) (wayNodeRefs : List (List Int))
    (blobs : List blockData) (shares : List (List blockData))
    (hshares : shares.flatten.Perm blobs) :
    NodesPassInv
      (fun id => buildNodeOwners wayNodeRefs id = true ∧ id ∈ datasetPointIds c blobs)
      (nodesPassInit c wayNodeRefs shares) := by
  refine ⟨?_, ?_, ?_⟩
  · intro r hr
    simp [nodesPassInit] at hr
  · intro ws hws
    simp only [nodesPassInit, List.mem_map] at hws
    obtain ⟨share, hs, rfl⟩ := hws
    apply sendsCovered_mono _ _ False _ False.elim
    apply sendsCovered_of_ids _ _ False (sendsCovered_nodesWorker c _ share)
    intro id hid
    obtain ⟨h1, h2⟩ := nodesWorker_sound c _ share id hid
    refine ⟨h1, ?_⟩
    have h3 : id ∈ datasetPointIds c shares.flatten := by
      rw [datasetPointIds_flatten]
      exact List.mem_flatMap.2 ⟨share, hs, h2⟩
    exact (datasetPointIds_perm c hshares).mem_iff.1 h3
  · intro w hw
    simp [nodesPassInit] at hw

/-! ## Point filtering: soundness, the lost point, completion events -/

/-- C3: whatever shares of the blobs the workers take and however their steps
and the writer's are interleaved, every row the pass writes has an id that is
in the ownership map built from the matched ways' node-id lists, so it occurs
in the point list of some matched way, and that is the id of a point of some
decoded data block of the input; the same holds of every value a worker
assigns to `n` before it sends its address. So an id referenced by a way but
absent from every point block gives no row, and does not make any worker
fail; an id referenced by no matched way is never written. -/
theorem findMatchingNodesPass_sound (c : Codec) (wayNodeRefs : List (List Int))
    (blobs : List blockData) (shares : List (List blockData))
    (hshares : shares.flatten.Perm blobs) :
    (∀ (schedule : List NodesPassStep),
      ∀ id ∈ writtenIds (runNodesPass c wayNodeRefs shares schedule),
        buildNodeOwners wayNodeRefs id = true ∧ (∃ way ∈ wayNodeRefs, id ∈ way) ∧
          id ∈ datasetPointIds c blobs) ∧
    (∀ id ∈ nodeIdsOf (nodesPassEvents c wayNodeRefs shares),
      buildNodeOwners wayNodeRefs id = true ∧ (∃ way ∈ wayNodeRefs, id ∈ way) ∧
        id ∈ datasetPointIds c blobs) ∧
    (∀ (schedule : List NodesPassStep) (id : Int), id ∉ datasetPointIds c blobs →
      id ∉ writtenIds (runNodesPass c wayNodeRefs shares schedule)) ∧
    (∀ (schedule : List NodesPassStep) (id : Int), (∀ way ∈ wayNodeRefs, id ∉ way) →
      id ∉ writtenIds (runNodesPass c wayNodeRefs shares schedule)) ∧
    (AllDataDecodes c blobs →
      ∀ share ∈ shares, (nodesWorker c (buildNodeOwners wayNodeRefs) share).status = .done) := by
  have rowsOk : ∀ (schedule : List NodesPassStep),
      ∀ id ∈ writtenIds (runNodesPass c wayNodeRefs shares schedule),
        buildNodeOwners wayNodeRefs id = true ∧ (∃ way ∈ wayNodeRefs, id ∈ way) ∧
          id ∈ datasetPointIds c blobs := by
    intro schedule id hid
    have hinv := foldl_nodesPassStep_inv _ schedule _
      (nodesPassInit_inv c wayNodeRefs blobs shares hshares)
    unfold writtenIds at hid
    obtain ⟨r, hr, rfl⟩ := List.mem_map.1 hid
    obtain ⟨h1, h2⟩ := hinv.rows r hr
    exact ⟨h1, (buildNodeOwners_true_iff wayNodeRefs r.id).1 h1, h2⟩
  have sentOk : ∀ id ∈ nodeIdsOf (nodesPassEvents c wayNodeRefs shares),
      buildNodeOwners wayNodeRefs id = true ∧ (∃ way ∈ wayNodeRefs, id ∈ way) ∧
        id ∈ datasetPointIds c blobs := by
    intro id hid
    unfold nodesPassEvents at hid
    rw [nodeIdsOf_flatMap] at hid
    obtain ⟨share, hs, hmem⟩ := List.mem_flatMap.1 hid
    obtain ⟨h1, h2⟩ := nodesWorker_sound c _ share id hmem
    refine ⟨h1, (buildNodeOwners_true_iff wayNodeRefs id).1 h1, ?_⟩
    have h3 : id ∈ datasetPointIds c shares.flatten := by
      rw [datasetPointIds_flatten]
      exact List.mem_flatMap.2 ⟨share, hs, h2⟩
    exact (datasetPointIds_perm c hshares).mem_iff.1 h3
  refine ⟨rowsOk, sentOk, ?_, ?_, ?_⟩
  · intro schedule id hnot hid
    exact hnot (rowsOk schedule id hid).2.2
  · intro schedule id hnot hid
    obtain ⟨way, hw, hin⟩ := (rowsOk schedule id hid).2.1
    exact hnot way hw hin
  · intro hdec share hs
    exact (nodesWorker_of_decodes c _ share
      (allDataDecodes_share c blobs shares hshares hdec share hs)).1

/-- The example file with two workers; the ways refer to points 1 and 2 and to
the absent point 99. A run to the end, in which the first worker assigns point
2 before the writer has read point 1, writes two rows with id 2: both ids are
owned and in the dataset, and neither point 3 nor id 99 is written. -/
theorem findMatchingNodesPass_sound_witness :
    (runNodesPass exampleCodec [[1, 2], [2, 99]]
        [[⟨"OSMData", [10]⟩], [⟨"OSMHeader", [0]⟩, ⟨"Other", [77]⟩]]
        (lateSchedule ++ [.work 1, .work 1, .work 1])).finished = true ∧
      writtenIds (runNodesPass exampleCodec [[1, 2], [2, 99]]
        [[⟨"OSMData", [10]⟩], [⟨"OSMHeader", [0]⟩, ⟨"Other", [77]⟩]]
        (lateSchedule ++ [.work 1, .work 1, .work 1])) = [2, 2] ∧
      (99 : Int) ∉ writtenIds (runNodesPass exampleCodec [[1, 2], [2, 99]]
        [[⟨"OSMData", [10]⟩], [⟨"OSMHeader", [0]⟩, ⟨"Other", [77]⟩]]
        (lateSchedule ++ [.work 1, .work 1, .work 1])) ∧
      (3 : Int) ∉ writtenIds (runNodesPass exampleCodec [[1, 2], [2, 99]]
        [[⟨"OSMData", [10]⟩], [⟨"OSMHeader", [0]⟩, ⟨"Other", [77]⟩]]
        (lateSchedule ++ [.work 1, .work 1, .work 1])) :=
  have h := findMatchingNodesPass_sound exampleCodec [[1, 2], [2, 99]] exampleBlobs
    [[⟨"OSMData", [10]⟩], [⟨"OSMHeader", [0]⟩, ⟨"Other", [77]⟩]] (by decide)
  ⟨by decide, by decide, h.2.2.1 _ 99 (by decide), h.2.2.2.1 _ 3 (by decide)⟩

/-- C4 fails on the code. On the example file, with one worker and the ways
referring to points 1 and 2, both present once in the dataset, the worker
assigns each of the two points to `n` once and sends the address of `n` twice.
When the writer reads each address before the next assignment, the rows
written are those of points 1 and 2. When the worker assigns point 2 before
the writer has read, the pass runs to its end having written two rows with id
2 and none with id 1: point 1 is lost and point 2 is written twice. -/
theorem findMatchingNodesPass_lost_point :
    (∃ way ∈ ([[1, 2]] : List (List Int)), (1 : Int) ∈ way) ∧
    (datasetPointIds exampleCodec [⟨"OSMData", [10]⟩]).count 1 = 1 ∧
    (datasetPointIds exampleCodec [⟨"OSMData", [10]⟩]).count 2 = 1 ∧
    nodeIdsOf (nodesPassEvents exampleCodec [[1, 2]] [[⟨"OSMData", [10]⟩]]) = [1, 2] ∧
    writtenIds (runNodesPass exampleCodec [[1, 2]] [[⟨"OSMData", [10]⟩]] promptSchedule) =
      [1, 2] ∧
    (runNodesPass exampleCodec [[1, 2]] [[⟨"OSMData", [10]⟩]] lateSchedule).finished = true ∧
    writtenIds (runNodesPass exampleCodec [[1, 2]] [[⟨"OSMData", [10]⟩]] lateSchedule) =
      [2, 2] ∧
    (writtenIds
      (runNodesPass exampleCodec [[1, 2]] [[⟨"OSMData", [10]⟩]] lateSchedule)).count 1 = 0 ∧
    (writtenIds
      (runNodesPass exampleCodec [[1, 2]] [[⟨"OSMData", [10]⟩]] lateSchedule)).count 2 = 2 := by
  decide

theorem waysWorkerBlob_done_of_block (c : Codec) (filterTag : String) (data : blockData)
    (b : PrimitiveBlock) (hb : dataBlockOf c data = some b) (hsafe : b.IndexSafe) :
    (waysWorkerBlob c filterTag data).status = .done := by
  unfold dataBlockOf at hb
  unfold waysWorkerBlob
  by_cases ht : data.blobHeaderType = "OSMData"
  · rw [if_pos ht] at hb
    cases hd : c.DecodeBlob data with
    | none => simp [hd] at hb
    | some bytes =>
      cases hu : c.UnmarshalPrimitive bytes with
      | none => simp [hd, hu] at hb
      | some b2 =>
        have hbb : b2 = b := by simpa [hd, hu] using hb
        subst hbb
        simp only [ht, if_true, hd, hu]
        rw [Run.andThen_status_done]
        exact ⟨(waysBlock_done_of_indexSafe filterTag b2 hsafe), rfl⟩
  · simp [ht] at hb

/-- C9: in both passes a worker sends exactly one completion event for every
blob whose processing it finishes, whether the blob is of type `OSMData` or
not and whatever it emitted before; a blob of another type, and a data blob
that decodes (to an index-safe block, in the way pass), is always finished.
So when no worker meets a fatal error the number of completion events of the
pass equals the number of blobs, however the blobs are shared among the
workers. The counting loop of the coordinator ends only with
`blobCount = totalBlobCount`, after that many events, and it does end once
`totalBlobCount` (positive) events have arrived. -/
theorem completion_events (c : Codec) (filterTag : String) (wayNodeRefs : List (List Int)) :
    (∀ data : blockData,
      ((waysWorkerBlob c filterTag data).status = .done →
        pendingCountW (waysWorkerBlob c filterTag data).emitted = 1) ∧
      ((nodesWorkerBlob c (buildNodeOwners wayNodeRefs) data).status = .done →
        pendingCountN (nodesWorkerBlob c (buildNodeOwners wayNodeRefs) data).emitted = 1) ∧
      (data.blobHeaderType ≠ "OSMData" →
        waysWorkerBlob c filterTag data = ⟨[.pending], .done⟩ ∧
        (nodesWorkerBlob c (buildNodeOwners wayNodeRefs) data).status = .done) ∧
      (∀ b, dataBlockOf c data = some b →
        (nodesWorkerBlob c (buildNodeOwners wayNodeRefs) data).status = .done ∧
        (b.IndexSafe → (waysWorkerBlob c filterTag data).status = .done))) ∧
    (∀ (blobs : List blockData) (shares : List (List blockData)),
      shares.flatten.Perm blobs →
      ((∀ share ∈ shares, (waysWorker c filterTag share).status = .done) →
        pendingCountW (waysPassEvents c filterTag shares) = blobs.length) ∧
      ((∀ share ∈ shares,
          (nodesWorker c (buildNodeOwners wayNodeRefs) share).status = .done) →
        pendingCountN (nodesPassEvents c wayNodeRefs shares) = blobs.length)) ∧
    (∀ (totalBlobCount : Int) (arrivals : Nat) (k : Int),
      countLoop totalBlobCount 0 arrivals = some k →
        k = totalBlobCount ∧ totalBlobCount ≤ arrivals) ∧
    (∀ (totalBlobCount : Int) (arrivals : Nat),
      0 < totalBlobCount → totalBlobCount ≤ arrivals →
        countLoop totalBlobCount 0 arrivals = some totalBlobCount) := by
  refine ⟨?_, ?_, ?_, ?_⟩
  · intro data
    refine ⟨waysWorkerBlob_pending c filterTag data, nodesWorkerBlob_pending c _ data, ?_, ?_⟩
    · intro ht
      refine ⟨?_, (nodesWorkerBlob_done_iff c _ data).2 (fun h => absurd h ht)⟩
      unfold waysWorkerBlob
      rw [if_neg ht]
      rfl
    · intro b hb
      refine ⟨(nodesWorkerBlob_done_iff c _ data).2 (fun _ => by simp [hb]), ?_⟩
      intro hsafe
      exact waysWorkerBlob_done_of_block c filterTag data b hb hsafe
  · intro blobs shares hshares
    have hlen : (shares.map List.length).sum = blobs.length := by
      rw [sum_lengths_flatten]
      exact hshares.length_eq
    constructor
    · intro hdone
      unfold waysPassEvents
      rw [pendingCountW_flatMap, ← hlen]
      congr 1
      apply List.map_congr_left
      intro share hs
      exact waysWorker_pending c filterTag share (hdone share hs)
    · intro hdone
      unfold nodesPassEvents
      rw [pendingCountN_flatMap, ← hlen]
      congr 1
      apply List.map_congr_left
      intro share hs
      exact nodesWorker_pending c _ share (hdone share hs)
  · intro total arrivals k h
    obtain ⟨h1, h2, h3⟩ := (countLoop_eq_some_iff total arrivals 0 k).1 h
    exact ⟨h1, by omega⟩
  · intro total arrivals hpos hle
    exact (countLoop_eq_some_iff total arrivals 0 total).2 ⟨rfl, hpos, by omega⟩

/-- The example file, three blobs shared by two workers: three completion
events in each pass, and the counting loop ends at 3 and stays blocked while
only two events have arrived. -/
theorem completion_events_witness :
    pendingCountW (waysPassEvents exampleCodec "highway"
        [[⟨"OSMData", [10]⟩], [⟨"OSMHeader", [0]⟩, ⟨"Other", [77]⟩]]) = 3 ∧
      pendingCountN (nodesPassEvents exampleCodec [[1, 2]]
        [[⟨"OSMData", [10]⟩], [⟨"OSMHeader", [0]⟩, ⟨"Other", [77]⟩]]) = 3 ∧
      countLoop 3 0 3 = some 3 ∧ countLoop 3 0 2 = none :=
  have h := completion_events exampleCodec "highway" [[1, 2]]
  have hp := h.2.1 exampleBlobs
    [[⟨"OSMData", [10]⟩], [⟨"OSMHeader", [0]⟩, ⟨"Other", [77]⟩]] (by decide)
  ⟨hp.1 (by decide), hp.2 (by decide), h.2.2.2 3 3 (by decide) (by decide), by decide⟩

end OsmPbfFilter
